import Mathlib

/-!
# Verification of the change-tracking table mirror (db-proxy.js)

Shallow embedding of the repository's core module src/db-proxy.js: the deep
mutation-interception proxy (createDeepProxy), the TableProxy mirror with its
identity-keyed operation queue, and the debounce/flush scheduler.

Modelling conventions, stated once:

* JavaScript objects are heap cells: a reference is a Nat, the heap maps
  references to objects.  An object is an insertion-ordered association list
  of string-keyed fields (the repository's field names are not array indices,
  so JavaScript property order is insertion order) plus the symbol-keyed
  INTERNAL marker, modelled as a Bool since symbol keys live in a separate
  namespace from string keys.
* Scalars are undefined, null, booleans, integers and strings; the repository
  never manipulates fractional numbers.  Reading an absent field yields
  undefined, as in JavaScript.
* A Proxy and its target are identified: createDeepProxy stores the proxy back
  in place of the raw child and the INTERNAL marker lands on the target
  through the trap, so no program point distinguishes the two objects other
  than the marker, which we model directly.  Flush-time serialization reads
  are modelled as raw (trap-free) reads of the referenced row: the queue entry
  for a dirty row is the raw row object captured by the _wrapRow closure.
* setTimeout is modelled by a deadline: the timer field holds (arming time +
  500) while armed, none while idle; firing is a separate step (fireTimer)
  that is only possible while armed, and the asynchronous gateway calls are
  represented by the Batch value the flush callback hands to the gateway.
* The log field of the mirror state is ghost instrumentation: every call of
  _queueOperation appends one entry.  It changes no observable behaviour and
  makes the claims about which operations were enqueued, and how often,
  directly statable.
* The hsize field is ghost bookkeeping of the number of allocated objects; it
  only bounds the recursion depth of the JSON.stringify model (no operation
  of the module allocates, so it is constant).
-/

namespace DbProxy

/-- JavaScript scalar (primitive) values occurring in the module. -/
inductive Scalar : Type where
  | undefined : Scalar
  | null : Scalar
  | bool : Bool → Scalar
  | int : Int → Scalar
  | str : String → Scalar
deriving DecidableEq, Repr

/-- A stored value: a scalar or a reference to a heap object.  Equality of
cells is exactly the JavaScript strict-equality check on these values:
value equality for scalars, reference equality for composites. -/
inductive Cell : Type where
  | sc : Scalar → Cell
  | ref : Nat → Cell
deriving DecidableEq, Repr

/-- Insertion-ordered association-list update, the semantics of a JavaScript
property assignment: an existing key keeps its slot, a new key is appended. -/
def setAssoc {α : Type} : List (String × α) → String → α → List (String × α)
  | [], k, v => [(k, v)]
  | p :: rest, k, v => if p.1 = k then (k, v) :: rest else p :: setAssoc rest k v

/-- Association-list lookup. -/
def lookupAssoc {α : Type} : List (String × α) → String → Option α
  | [], _ => none
  | p :: rest, k => if p.1 = k then some p.2 else lookupAssoc rest k

/-- Association-list deletion (the delete operator removes the key). -/
def delAssoc {α : Type} : List (String × α) → String → List (String × α)
  | [], _ => []
  | p :: rest, k => if p.1 = k then rest else p :: delAssoc rest k

/-- A heap object: its enumerable string-keyed fields in insertion order and
the symbol-keyed INTERNAL marker of createDeepProxy (absent on raw values). -/
structure Obj : Type where
  fields : List (String × Cell)
  internal : Bool
deriving DecidableEq, Repr

def emptyObj : Obj := { fields := [], internal := false }

/-- The heap: object references to objects. -/
def Heap : Type := Nat → Obj

def heapSet (h : Heap) (r : Nat) (o : Obj) : Heap :=
  fun x => if x = r then o else h x

/-- Reading field k of a raw object: absent fields read as undefined. -/
def rawGet (o : Obj) (k : String) : Cell :=
  (lookupAssoc o.fields k).getD (Cell.sc Scalar.undefined)

/-- Kind of a pending operation, the type field of a queue entry. -/
inductive OpType : Type where
  | save : OpType
  | delete : OpType
deriving DecidableEq, Repr

/-- A queue entry: { row, type } — the row is held by reference. -/
structure Op : Type where
  row : Nat
  ty : OpType
deriving DecidableEq, Repr

/-- The mirror state of one TableProxy: the heap of row (and nested) objects,
the rows array (holding row references), the identity-keyed operation queue
(a JavaScript Map, modelled as an insertion-ordered association list with
unique keys), the debounce timer (deadline while armed), plus the two ghost
fields described in the file header. -/
structure TPState : Type where
  heap : Heap
  hsize : Nat
  rows : List Nat
  queue : List (Cell × Op)
  timer : Option Nat
  log : List (Nat × OpType)

/-- Map.prototype.set: an existing key keeps its position and gets the new
value; a new key is appended. -/
def mapSet : List (Cell × Op) → Cell → Op → List (Cell × Op)
  | [], k, v => [(k, v)]
  | p :: rest, k, v => if p.1 = k then (k, v) :: rest else p :: mapSet rest k v

def getField (st : TPState) (r : Nat) (k : String) : Cell :=
  rawGet (st.heap r) k

/-- A raw (trap-free) property write on the object at r. -/
def writeRaw (st : TPState) (r : Nat) (k : String) (v : Cell) : TPState :=
  let o := st.heap r
  { st with heap := heapSet st.heap r ({ o with fields := setAssoc o.fields k v }) }

/-- Setting the INTERNAL marker on the target of a new proxy. -/
def markInternal (st : TPState) (r : Nat) : TPState :=
  { st with heap := heapSet st.heap r ({ st.heap r with internal := true }) }

def isInternal (st : TPState) (r : Nat) : Bool :=
  (st.heap r).internal

/-- The row identity, row._idx, read raw. -/
def getIdx (st : TPState) (r : Nat) : Cell :=
  getField st r ("_idx")

def undefCell : Cell := Cell.sc Scalar.undefined

/-- TableProxy._queueOperation (db-proxy.js lines 85-94), the part that runs
at enqueue time.  If row._idx is undefined it is assigned this.rows.length by
a direct write on the row object captured by the closure (this write does not
re-enter the set trap).  The queue entry is keyed by row._idx and holds the
row by reference; setting an existing key overwrites the entry in place.  If
a timer is already armed the function returns; otherwise it arms the single
debounce timer with the fixed 500 ms window measured from now.  (The timer
callback itself, lines 91-122, is flushSync below.) -/
def queueOperation (st : TPState) (rowRef : Nat) (ty : OpType) (now : Nat) : TPState :=
  let st1 := if getIdx st rowRef = undefCell
             then writeRaw st rowRef ("_idx") (Cell.sc (Scalar.int st.rows.length))
             else st
  let st2 := { st1 with
               queue := mapSet st1.queue (getIdx st1 rowRef) { row := rowRef, ty := ty },
               log := st1.log ++ [(rowRef, ty)] }
  if st2.timer.isSome then st2 else { st2 with timer := some (now + 500) }

/-- createDeepProxy (lines 6-35) applied to the composite at r, with onChange
bound to the dirty callback of the row rowRef (the callback of _wrapRow is
fun _ => queueOperation st rowRef save now).  Scalars are returned unchanged
by the source before a proxy is built, which call sites of this model handle
by only invoking createDeepProxy on references.  If the target already
carries the INTERNAL marker it is returned as is.  Otherwise a proxy is
built and the source executes proxy[INTERNAL] = true: that assignment passes
through the proxy's own set trap, where oldValue = target[INTERNAL] is
undefined, Reflect.set installs the marker, and undefined !== true, so
onChange() is invoked once during the wrapping itself. -/
def createDeepProxy (st : TPState) (rowRef r : Nat) (now : Nat) : TPState :=
  if isInternal st r then st
  else queueOperation (markInternal st r) rowRef OpType.save now

/-- The get trap (lines 11-19): reading prop on the tracked composite objRef
owned by the row rowRef.  A composite child is lazily wrapped via
createDeepProxy (which may invoke onChange, see above) and stored back with
Reflect.set on the raw target — a trap-free write which, with proxy and
target identified, leaves the stored cell unchanged; the same wrapped child
is returned on every subsequent read.  A scalar is returned unchanged. -/
def getTrap (st : TPState) (rowRef objRef : Nat) (prop : String) (now : Nat) :
    TPState × Cell :=
  match getField st objRef prop with
  | Cell.ref child => (createDeepProxy st rowRef child now, Cell.ref child)
  | Cell.sc s => (st, Cell.sc s)

/-- The set trap (lines 20-25): oldValue := t[prop]; the write is performed
unconditionally by Reflect.set; then onChange() is invoked, synchronously
after the write, if and only if oldValue !== value — cell equality, i.e.
reference equality for composites and value equality for scalars, with no
deep comparison. -/
def setTrap (st : TPState) (rowRef objRef : Nat) (prop : String) (v : Cell) (now : Nat) :
    TPState :=
  let oldValue := getField st objRef prop
  let st1 := writeRaw st objRef prop v
  if oldValue ≠ v then queueOperation st1 rowRef OpType.save now else st1

/-- The deleteProperty trap (lines 26-30): the deletion is performed and
onChange() is invoked unconditionally. -/
def deleteTrap (st : TPState) (rowRef objRef : Nat) (prop : String) (now : Nat) :
    TPState :=
  let o := st.heap objRef
  let st1 := { st with heap := heapSet st.heap objRef ({ o with fields := delAssoc o.fields prop }) }
  queueOperation st1 rowRef OpType.save now

/-- TableProxy._wrapRow (lines 70-83): an already-tracked row is returned as
is; otherwise the row is wrapped by createDeepProxy with onChange enqueueing
a save for this very row.  The non-enumerable _internal metadata property is
installed with Object.defineProperty — which does not pass through the set
trap — and is never read back anywhere in the module (serialization skips
both non-enumerable properties and, explicitly, the _internal key), so it is
not modelled as a field. -/
def wrapRow (st : TPState) (r : Nat) (now : Nat) : TPState :=
  if isInternal st r then st
  else createDeepProxy st r r now

/-- The forEach of init (lines 62-64): data.forEach((row, i) => { if
(row._idx === undefined) row._idx = i }) — a direct write on the still
unwrapped row, before any proxy exists. -/
def assignIdxFrom : TPState → List Nat → Nat → TPState
  | st, [], _ => st
  | st, r :: rest, i =>
      let st1 := if getIdx st r = undefCell
                 then writeRaw st r ("_idx") (Cell.sc (Scalar.int i))
                 else st
      assignIdxFrom st1 rest (i + 1)

/-- The map of init (line 66): this.rows = data.map(row => _wrapRow row).
While the map runs, this.rows is still null in the source; _queueOperation
never reads it during init because the forEach above left every row with a
defined _idx. -/
def wrapAll : TPState → List Nat → Nat → TPState
  | st, [], _ => st
  | st, r :: rest, now => wrapAll (wrapRow st r now) rest now

/-- A freshly constructed TableProxy before init: empty queue, no timer,
rows not yet loaded (lines 46-47, 55). -/
def mkTable (heap : Heap) (hsize : Nat) : TPState :=
  { heap := heap, hsize := hsize, rows := [], queue := [], timer := none, log := [] }

/-- TableProxy.init (lines 59-68) applied to the loaded snapshot: data is the
list of row references returned by the full-table select, in storage order.
Rows lacking an _idx get their load position; rows already carrying an _idx
keep it.  Every row is then wrapped, and finally this.rows is assigned. -/
def initTable (heap : Heap) (hsize : Nat) (data : List Nat) (now : Nat) : TPState :=
  let st1 := assignIdxFrom (mkTable heap hsize) data 0
  let st2 := wrapAll st1 data now
  { st2 with rows := data }

/-- TableProxy.push (lines 129-135): row._idx = this.rows.length (a direct
write — the incoming record is untracked), wrap, append to rows, enqueue a
save. -/
def push (st : TPState) (r : Nat) (now : Nat) : TPState :=
  let st1 := writeRaw st r ("_idx") (Cell.sc (Scalar.int st.rows.length))
  let st2 := wrapRow st1 r now
  let st3 := { st2 with rows := st2.rows ++ [r] }
  queueOperation st3 r OpType.save now

/-- The items.map callback of splice (lines 141-144): i._idx = start + idx (a
direct write on the caller-supplied raw record), then _wrapRow.  Note the
unnormalized start is used for these identities, exactly as in the source. -/
def wrapItemsFrom : TPState → List Nat → Nat → Nat → TPState
  | st, [], _, _ => st
  | st, i :: rest, pos, now =>
      let st1 := writeRaw st i ("_idx") (Cell.sc (Scalar.int pos))
      let st2 := wrapRow st1 i now
      wrapItemsFrom st2 rest (pos + 1) now

/-- forEach over a list of rows enqueueing one operation each (lines 147-148). -/
def queueAll : TPState → List Nat → OpType → Nat → TPState
  | st, [], _, _ => st
  | st, r :: rest, ty, now => queueAll (queueOperation st r ty now) rest ty now

/-- The reindex loop of splice (line 150): this.rows.forEach((row, idx) =>
row._idx = idx).  The rows array holds tracked rows, so each assignment
passes through the set trap: the write always happens, and onChange fires
exactly when the identity actually changes. -/
def reindexFrom : TPState → List Nat → Nat → Nat → TPState
  | st, [], _, _ => st
  | st, r :: rest, i, now =>
      let st1 := setTrap st r r ("_idx") (Cell.sc (Scalar.int i)) now
      reindexFrom st1 rest (i + 1) now

/-- TableProxy.splice (lines 137-152).  Array.prototype.splice normalization
for nonnegative arguments: the insertion point is clamped to the array length
and the deletion count to the remaining length (negative arguments are not
exercised by any claim and are not modelled).  Phases, in source order:
evaluate the items.map argument (assign identities from the raw start and
wrap each item), perform the array splice, enqueue a delete for every removed
row, enqueue a save for every inserted item, then reindex every row of the
resulting array through the set trap. -/
def splice (st : TPState) (start delCnt : Nat) (items : List Nat) (now : Nat) : TPState :=
  let s := min start st.rows.length
  let dc := min delCnt (st.rows.length - s)
  let st1 := wrapItemsFrom st items start now
  let removed := (st.rows.drop s).take dc
  let newRows := st.rows.take s ++ items ++ st.rows.drop (s + dc)
  let st2 := { st1 with rows := newRows }
  let st3 := queueAll st2 removed OpType.delete now
  let st4 := queueAll st3 items OpType.save now
  reindexFrom st4 newRows 0 now

/-- A JSON value: the result of JSON.stringify on a composite, as a tree. -/
inductive JVal : Type where
  | sc : Scalar → JVal
  | obj : List (String × JVal) → JVal

/-- JSON.stringify of a cell, fuelled: the fuel only bounds recursion depth
(JSON.stringify throws on cyclic structures; every heap of the claims is
acyclic with depth below hsize + 1, so the fuel is never exhausted). -/
def stringifyCell : Nat → Heap → Cell → JVal
  | _, _, Cell.sc s => JVal.sc s
  | 0, _, Cell.ref _ => JVal.sc Scalar.null
  | Nat.succ fuel, h, Cell.ref r =>
      JVal.obj ((h r).fields.map (fun p => (p.1, stringifyCell fuel h p.2)))

/-- A serialized column value of the save batch: a scalar is passed through
unchanged; an object-valued field is JSON.stringify-ed (line 106). -/
inductive SVal : Type where
  | plain : Scalar → SVal
  | jsonOf : JVal → SVal

def svalOfCell (fuel : Nat) (h : Heap) : Cell → SVal
  | Cell.sc s => SVal.plain s
  | Cell.ref r => SVal.jsonOf (stringifyCell fuel h (Cell.ref r))

/-- The insertRows map body (lines 101-109): rowToSave starts as { _idx:
op.row._idx }; then every own enumerable key of the row is copied in order,
skipping _internal, JSON-stringifying object values.  The _idx key, being
among the row's keys, is rewritten in place and keeps the first slot. -/
def serializeRow (fuel : Nat) (h : Heap) (r : Nat) : List (String × SVal) :=
  let fs := (h r).fields
  let start : List (String × SVal) :=
    [(("_idx"), svalOfCell fuel h (rawGet (h r) ("_idx")))]
  fs.foldl
    (fun acc p =>
      if p.1 = ("_internal") then acc
      else setAssoc acc p.1 (svalOfCell fuel h p.2))
    start

/-- What one flush hands to the persistence gateway: the rows of the single
bulk upsert statement (lines 111-115, issued only when saves is nonempty) and
the identity list of the single bulk delete statement (lines 118-121, issued
only when deletes is nonempty). -/
structure Batch : Type where
  saves : List (List (String × SVal))
  deleteIds : List Cell

/-- Number of upsert statements a batch makes the gateway issue. -/
def Batch.upsertStatements (b : Batch) : Nat :=
  if b.saves.isEmpty then 0 else 1

/-- Number of delete statements a batch makes the gateway issue. -/
def Batch.deleteStatements (b : Batch) : Nat :=
  if b.deleteIds.isEmpty then 0 else 1

/-- The flush callback (lines 91-122): its synchronous prefix snapshots the
queue (Array.from of the Map values, in insertion order), clears the Map and
resets the timer handle — all before any gateway I/O.  The snapshot is then
partitioned by operation kind and turned into the Batch handed to the
gateway; serialization and the delete identity list read the rows at this
moment, through the references the queue entries hold. -/
def flushSync (st : TPState) : TPState × Batch :=
  let operations := st.queue.map (fun p => p.2)
  let st1 := { st with queue := [], timer := none }
  let saves := operations.filter (fun op => decide (op.ty = OpType.save))
  let dels := operations.filter (fun op => decide (op.ty = OpType.delete))
  let fuel := st1.hsize + 1
  (st1,
   { saves := saves.map (fun op => serializeRow fuel st1.heap op.row),
     deleteIds := dels.map (fun op => rawGet (st1.heap op.row) ("_idx")) })

/-- The whole callback including the awaited gateway calls: the source has no
rejection handler and no statement after the awaits, so the mirror state
after the callback does not depend on the gateway outcome — a rejected batch
is neither retried nor re-queued, and the rows are not touched. -/
def flushCallback (st : TPState) (_gatewayOk : Bool) : TPState × Batch :=
  flushSync st

/-- Firing the debounce timer: only possible while a timer is armed (a
setTimeout callback runs exactly once per arming); it runs the flush
callback. -/
def fireTimer (st : TPState) : Option (TPState × Batch) :=
  match st.timer with
  | none => none
  | some _ => some (flushSync st)

/-- The keys of the operation queue (the pending identities). -/
def queueKeys (st : TPState) : List Cell :=
  st.queue.map (fun p => p.1)

/-- A sequence of mutations hitting the queue: every mutation of any row,
at any depth, funnels into one _queueOperation call (row, kind, time). -/
def applyOps : TPState → List (Nat × OpType × Nat) → TPState
  | st, [] => st
  | st, (r, ty, t) :: rest => applyOps (queueOperation st r ty t) rest

/-- A sequence of tracked field writes on one row, each through the set trap. -/
def applyWrites : TPState → Nat → List (String × Cell) → Nat → TPState
  | st, _, [], _ => st
  | st, r, (k, v) :: rest, now => applyWrites (setTrap st r r k v now) r rest now

/-- The onChange events the reindex loop of splice will emit, read off the
state it starts from: one save per row whose stored identity differs from its
position (valid description of the loop for duplicate-free row lists, where
no iteration touches a later row's fields). -/
def reindexEvents (st : TPState) : List Nat → Nat → List (Nat × OpType)
  | [], _ => []
  | r :: rest, i =>
      (if getIdx st r = Cell.sc (Scalar.int i) then [] else [(r, OpType.save)])
        ++ reindexEvents st rest (i + 1)

/-- The identity/position invariant: every row of the mirror stores an _idx
equal to its position in the rows sequence. -/
def IdxPos (st : TPState) : Prop :=
  ∀ j, j < st.rows.length → getIdx st (st.rows.getD j 0) = Cell.sc (Scalar.int j)

def emptyBatch : Batch := { saves := [], deleteIds := [] }

/-! ## Concrete scenarios used by the claims -/

/-- Row {_idx 0, name a} as loaded (raw, no marker). -/
def c1Row0 : Obj :=
  { fields := [(("_idx"), Cell.sc (Scalar.int 0)), (("name"), Cell.sc (Scalar.str ("a")))],
    internal := false }

/-- Row {_idx 1, name b} as loaded. -/
def c1Row1 : Obj :=
  { fields := [(("_idx"), Cell.sc (Scalar.int 1)), (("name"), Cell.sc (Scalar.str ("b")))],
    internal := false }

def c1Heap : Heap := fun n => if n = 0 then c1Row0 else if n = 1 then c1Row1 else emptyObj

/-- The C1 mirror right after init over the two-row table, at time 0. -/
def c1Init : TPState := initTable c1Heap 2 [0, 1] 0

/-- The caller's only mutation: row0.name := a2, within the debounce window. -/
def c1AfterSet : TPState := setTrap c1Init 0 0 ("name") (Cell.sc (Scalar.str ("a2"))) 100

/-- The batch the flush hands to the gateway in the C1 scenario. -/
def c1Batch : Batch := ((fireTimer c1AfterSet).map (fun p => p.2)).getD emptyBatch

def c1SavedRow0 : List (String × SVal) :=
  [(("_idx"), SVal.plain (Scalar.int 0)), (("name"), SVal.plain (Scalar.str ("a2")))]

def c1SavedRow1 : List (String × SVal) :=
  [(("_idx"), SVal.plain (Scalar.int 1)), (("name"), SVal.plain (Scalar.str ("b")))]

/-- The C2 heap: the two loaded rows plus the to-be-pushed raw row {name c}. -/
def c2Heap : Heap := fun n =>
  if n = 0 then c1Row0
  else if n = 1 then c1Row1
  else if n = 2 then { fields := [(("name"), Cell.sc (Scalar.str ("c")))], internal := false }
  else emptyObj

/-- The C2 mirror in its idle state: initialized over rows 0 and 1 and with
the init-triggered flush already fired (empty queue, no timer). -/
def c2Idle : TPState :=
  ((fireTimer (initTable c2Heap 3 [0, 1] 0)).getD (mkTable c2Heap 3, emptyBatch)).1

/-- One debounce window: remove row 0 by splice(0, 1), then append row 2. -/
def c2AfterSplice : TPState := splice c2Idle 0 1 [] 600

def c2Final : TPState := push c2AfterSplice 2 700

def c2Batch : Batch := ((fireTimer c2Final).map (fun p => p.2)).getD emptyBatch

/-- The C8 heap: a single row loaded from storage already carrying _idx 5. -/
def c8Heap : Heap := fun n =>
  if n = 0 then
    { fields := [(("_idx"), Cell.sc (Scalar.int 5)), (("name"), Cell.sc (Scalar.str ("x")))],
      internal := false }
  else emptyObj

def c8St : TPState := initTable c8Heap 1 [0] 0

/-- A small tracked mirror used by witnesses: one wrapped row {_idx 0, v 1}. -/
def wRow : Obj :=
  { fields := [(("_idx"), Cell.sc (Scalar.int 0)), (("v"), Cell.sc (Scalar.int 1))],
    internal := true }

def wHeap : Heap := fun n => if n = 0 then wRow else emptyObj

/-- Idle witness mirror: no pending operation, no timer. -/
def wIdle : TPState :=
  { heap := wHeap, hsize := 1, rows := [0], queue := [], timer := none, log := [] }

/-- Armed witness mirror: a timer pending with deadline 500. -/
def wArmed : TPState := { wIdle with timer := some 500 }

/-- Armed witness mirror with one queued save for the row. -/
def wQueued : TPState :=
  { wArmed with queue := [(Cell.sc (Scalar.int 0), { row := 0, ty := OpType.save })] }

/-- An idle two-row mirror over the C2 heap (identities 0 and 1 in place,
nothing pending), used to exercise splice and push. -/
def wSpl : TPState :=
  { heap := c2Heap, hsize := 3, rows := [0, 1], queue := [], timer := none, log := [] }

/-- A wrapped row 0 holding a not-yet-wrapped nested composite at ref 1. -/
def wNestHeap : Heap := fun n =>
  if n = 0 then
    { fields := [(("_idx"), Cell.sc (Scalar.int 0)), (("data"), Cell.ref 1)], internal := true }
  else if n = 1 then { fields := [(("k"), Cell.sc (Scalar.int 7))], internal := false }
  else emptyObj

def wNest : TPState :=
  { heap := wNestHeap, hsize := 2, rows := [0], queue := [], timer := some 500, log := [] }

/-! ## Basic lemmas about the association lists and the heap -/

theorem lookupAssoc_setAssoc_self {α : Type} (l : List (String × α)) (k : String) (v : α) :
    lookupAssoc (setAssoc l k v) k = some v := by
  induction l with
  | nil => simp [setAssoc, lookupAssoc]
  | cons p rest ih =>
      by_cases h : p.1 = k
      · simp [setAssoc, lookupAssoc, h]
      · simp [setAssoc, lookupAssoc, h, ih]

theorem lookupAssoc_setAssoc_ne {α : Type} (l : List (String × α)) {k k' : String}
    (h : k' ≠ k) (v : α) :
    lookupAssoc (setAssoc l k v) k' = lookupAssoc l k' := by
  induction l with
  | nil => simp [setAssoc, lookupAssoc, Ne.symm h]
  | cons p rest ih =>
      simp only [setAssoc]
      by_cases hp : p.1 = k
      · simp [lookupAssoc, hp, Ne.symm h]
      · by_cases hp' : p.1 = k'
        · simp [lookupAssoc, hp, hp', h]
        · simp [lookupAssoc, hp, hp', ih]

theorem heapSet_same (h : Heap) (r : Nat) (o : Obj) : heapSet h r o r = o := by
  simp [heapSet]

theorem heapSet_other (h : Heap) (r : Nat) (o : Obj) {r' : Nat} (hne : r' ≠ r) :
    heapSet h r o r' = h r' := by
  simp [heapSet, hne]

@[simp] theorem writeRaw_rows (st : TPState) (r : Nat) (k : String) (v : Cell) :
    (writeRaw st r k v).rows = st.rows := rfl

@[simp] theorem writeRaw_queue (st : TPState) (r : Nat) (k : String) (v : Cell) :
    (writeRaw st r k v).queue = st.queue := rfl

@[simp] theorem writeRaw_timer (st : TPState) (r : Nat) (k : String) (v : Cell) :
    (writeRaw st r k v).timer = st.timer := rfl

@[simp] theorem writeRaw_log (st : TPState) (r : Nat) (k : String) (v : Cell) :
    (writeRaw st r k v).log = st.log := rfl

@[simp] theorem writeRaw_hsize (st : TPState) (r : Nat) (k : String) (v : Cell) :
    (writeRaw st r k v).hsize = st.hsize := rfl

theorem getField_writeRaw_self (st : TPState) (r : Nat) (k : String) (v : Cell) :
    getField (writeRaw st r k v) r k = v := by
  simp [getField, writeRaw, rawGet, heapSet_same, lookupAssoc_setAssoc_self]

theorem getField_writeRaw_ne_key (st : TPState) (r : Nat) {k k' : String} (v : Cell)
    (h : k' ≠ k) : getField (writeRaw st r k v) r k' = getField st r k' := by
  simp [getField, writeRaw, rawGet, heapSet_same, lookupAssoc_setAssoc_ne _ h]

theorem getField_writeRaw_ne_obj (st : TPState) {r r' : Nat} (k k' : String) (v : Cell)
    (h : r' ≠ r) : getField (writeRaw st r k v) r' k' = getField st r' k' := by
  simp [getField, writeRaw, rawGet, heapSet_other _ _ _ h]

theorem isInternal_writeRaw (st : TPState) (r : Nat) (k : String) (v : Cell) (r' : Nat) :
    isInternal (writeRaw st r k v) r' = isInternal st r' := by
  by_cases h : r' = r
  · subst h; simp [isInternal, writeRaw, heapSet_same]
  · simp [isInternal, writeRaw, heapSet_other _ _ _ h]

@[simp] theorem markInternal_rows (st : TPState) (r : Nat) :
    (markInternal st r).rows = st.rows := rfl

@[simp] theorem markInternal_queue (st : TPState) (r : Nat) :
    (markInternal st r).queue = st.queue := rfl

@[simp] theorem markInternal_timer (st : TPState) (r : Nat) :
    (markInternal st r).timer = st.timer := rfl

@[simp] theorem markInternal_log (st : TPState) (r : Nat) :
    (markInternal st r).log = st.log := rfl

@[simp] theorem markInternal_hsize (st : TPState) (r : Nat) :
    (markInternal st r).hsize = st.hsize := rfl

theorem getField_markInternal (st : TPState) (r r' : Nat) (k : String) :
    getField (markInternal st r) r' k = getField st r' k := by
  by_cases h : r' = r
  · subst h; simp [getField, markInternal, rawGet, heapSet_same]
  · simp [getField, markInternal, rawGet, heapSet_other _ _ _ h]

theorem isInternal_markInternal_self (st : TPState) (r : Nat) :
    isInternal (markInternal st r) r = true := by
  simp [isInternal, markInternal, heapSet_same]

theorem isInternal_markInternal_ne (st : TPState) (r : Nat) {r' : Nat} (h : r' ≠ r) :
    isInternal (markInternal st r) r' = isInternal st r' := by
  simp [isInternal, markInternal, heapSet_other _ _ _ h]

/-! ## Lemmas about _queueOperation -/

@[simp] theorem queueOperation_rows (st : TPState) (r : Nat) (ty : OpType) (now : Nat) :
    (queueOperation st r ty now).rows = st.rows := by
  simp only [queueOperation]
  split <;> split <;> rfl

@[simp] theorem queueOperation_hsize (st : TPState) (r : Nat) (ty : OpType) (now : Nat) :
    (queueOperation st r ty now).hsize = st.hsize := by
  simp only [queueOperation]
  split <;> split <;> rfl

theorem queueOperation_log (st : TPState) (r : Nat) (ty : OpType) (now : Nat) :
    (queueOperation st r ty now).log = st.log ++ [(r, ty)] := by
  simp only [queueOperation]
  split <;> split <;> rfl

theorem queueOperation_timer_none (st : TPState) (r : Nat) (ty : OpType) (now : Nat)
    (h : st.timer = none) :
    (queueOperation st r ty now).timer = some (now + 500) := by
  simp only [queueOperation]
  split <;> simp [h]

theorem queueOperation_timer_some (st : TPState) (r : Nat) (ty : OpType) (now : Nat)
    (d : Nat) (h : st.timer = some d) :
    (queueOperation st r ty now).timer = some d := by
  simp only [queueOperation]
  split <;> simp [h]

theorem queueOperation_heap_defined (st : TPState) (r : Nat) (ty : OpType) (now : Nat)
    (h : getIdx st r ≠ undefCell) :
    (queueOperation st r ty now).heap = st.heap := by
  simp only [queueOperation, if_neg h]
  split <;> rfl

theorem queueOperation_queue_defined (st : TPState) (r : Nat) (ty : OpType) (now : Nat)
    (h : getIdx st r ≠ undefCell) :
    (queueOperation st r ty now).queue =
      mapSet st.queue (getIdx st r) { row := r, ty := ty } := by
  simp only [queueOperation, if_neg h]
  split <;> rfl

theorem queueOperation_getField_ne (st : TPState) (r : Nat) (ty : OpType) (now : Nat)
    {r' : Nat} (k : String) (hne : r' ≠ r) :
    getField (queueOperation st r ty now) r' k = getField st r' k := by
  simp only [queueOperation]
  split
  · split <;> simp [getField, rawGet, writeRaw, heapSet, hne]
  · split <;> rfl

theorem queueOperation_getField_defined (st : TPState) (r : Nat) (ty : OpType) (now : Nat)
    (r' : Nat) (k : String) (h : getIdx st r ≠ undefCell) :
    getField (queueOperation st r ty now) r' k = getField st r' k := by
  simp only [queueOperation, if_neg h]
  split <;> rfl

theorem queueOperation_isInternal (st : TPState) (r : Nat) (ty : OpType) (now : Nat)
    (r' : Nat) :
    isInternal (queueOperation st r ty now) r' = isInternal st r' := by
  simp only [queueOperation]
  split
  · split <;>
    · simp only [isInternal, writeRaw, heapSet]
      by_cases hrr : r' = r
      · subst hrr; simp
      · simp [hrr]
  · split <;> rfl

/-! ## Lemmas about the traps -/

theorem setTrap_eq_of_eq (st : TPState) (rowRef objRef : Nat) (prop : String)
    (v : Cell) (now : Nat) (h : getField st objRef prop = v) :
    setTrap st rowRef objRef prop v now = writeRaw st objRef prop v := by
  simp [setTrap, h]

theorem setTrap_eq_of_ne (st : TPState) (rowRef objRef : Nat) (prop : String)
    (v : Cell) (now : Nat) (h : getField st objRef prop ≠ v) :
    setTrap st rowRef objRef prop v now =
      queueOperation (writeRaw st objRef prop v) rowRef OpType.save now := by
  simp [setTrap, h]

theorem createDeepProxy_internal (st : TPState) (rowRef r : Nat) (now : Nat)
    (h : isInternal st r = true) :
    createDeepProxy st rowRef r now = st := by
  simp [createDeepProxy, h]

theorem createDeepProxy_raw (st : TPState) (rowRef r : Nat) (now : Nat)
    (h : isInternal st r = false) :
    createDeepProxy st rowRef r now =
      queueOperation (markInternal st r) rowRef OpType.save now := by
  simp [createDeepProxy, h]

theorem wrapRow_internal (st : TPState) (r : Nat) (now : Nat)
    (h : isInternal st r = true) : wrapRow st r now = st := by
  simp [wrapRow, h]

theorem wrapRow_raw (st : TPState) (r : Nat) (now : Nat)
    (h : isInternal st r = false) :
    wrapRow st r now = queueOperation (markInternal st r) r OpType.save now := by
  simp [wrapRow, createDeepProxy, h]

/-! ## Lemmas about init-time wrapping (for C3) -/

theorem assignIdxFrom_isInternal (r' : Nat) :
    ∀ (st : TPState) (l : List Nat) (i : Nat),
      isInternal (assignIdxFrom st l i) r' = isInternal st r' := by
  intro st l
  induction l generalizing st with
  | nil => intro i; rfl
  | cons x xs ih =>
      intro i
      simp only [assignIdxFrom]
      rw [ih]
      split <;> simp [isInternal_writeRaw]

theorem assignIdxFrom_log (st : TPState) (l : List Nat) (i : Nat) :
    (assignIdxFrom st l i).log = st.log := by
  induction l generalizing st i with
  | nil => rfl
  | cons x xs ih =>
      simp only [assignIdxFrom]
      rw [ih]
      split <;> rfl

theorem assignIdxFrom_timer (st : TPState) (l : List Nat) (i : Nat) :
    (assignIdxFrom st l i).timer = st.timer := by
  induction l generalizing st i with
  | nil => rfl
  | cons x xs ih =>
      simp only [assignIdxFrom]
      rw [ih]
      split <;> rfl

theorem assignIdxFrom_queue (st : TPState) (l : List Nat) (i : Nat) :
    (assignIdxFrom st l i).queue = st.queue := by
  induction l generalizing st i with
  | nil => rfl
  | cons x xs ih =>
      simp only [assignIdxFrom]
      rw [ih]
      split <;> rfl

theorem wrapRow_timer_some (st : TPState) (r now d : Nat) (h : st.timer = some d) :
    (wrapRow st r now).timer = some d := by
  by_cases hi : isInternal st r
  · rw [wrapRow_internal _ _ _ hi]; exact h
  · rw [wrapRow_raw _ _ _ (by simpa using hi)]
    exact queueOperation_timer_some _ _ _ _ _ (by simpa using h)

theorem wrapAll_timer_some (st : TPState) (l : List Nat) (now d : Nat)
    (h : st.timer = some d) : (wrapAll st l now).timer = some d := by
  induction l generalizing st with
  | nil => exact h
  | cons x xs ih => exact ih _ (wrapRow_timer_some _ _ _ _ h)

theorem wrapAll_timer_arms (st : TPState) (x : Nat) (xs : List Nat) (now : Nat)
    (hx : isInternal st x = false) (ht : st.timer = none) :
    (wrapAll st (x :: xs) now).timer = some (now + 500) := by
  have h1 : wrapAll st (x :: xs) now = wrapAll (wrapRow st x now) xs now := rfl
  rw [h1]
  apply wrapAll_timer_some
  rw [wrapRow_raw _ _ _ hx]
  exact queueOperation_timer_none _ _ _ _ (by simpa using ht)

theorem wrapAll_log (st : TPState) (l : List Nat) (now : Nat)
    (hraw : ∀ x ∈ l, isInternal st x = false) (hnd : l.Nodup) :
    (wrapAll st l now).log = st.log ++ l.map (fun x => (x, OpType.save)) := by
  induction l generalizing st with
  | nil => simp [wrapAll]
  | cons x xs ih =>
      have hx : isInternal st x = false := hraw x (List.mem_cons_self x xs)
      have h1 : wrapAll st (x :: xs) now = wrapAll (wrapRow st x now) xs now := rfl
      rw [h1, wrapRow_raw _ _ _ hx]
      have hlog : (queueOperation (markInternal st x) x OpType.save now).log =
          st.log ++ [(x, OpType.save)] := by
        rw [queueOperation_log]; simp
      have hraw' : ∀ y ∈ xs, isInternal (queueOperation (markInternal st x) x OpType.save now) y = false := by
        intro y hy
        have hyx : y ≠ x := fun hxy => (List.nodup_cons.mp hnd).1 (hxy ▸ hy)
        rw [queueOperation_isInternal, isInternal_markInternal_ne _ _ hyx]
        exact hraw y (List.mem_cons_of_mem _ hy)
      rw [ih _ hraw' (List.nodup_cons.mp hnd).2, hlog]
      simp

theorem getTrap_child_raw (st : TPState) (rowRef objRef : Nat) (prop : String)
    (now child : Nat)
    (hchild : getField st objRef prop = Cell.ref child)
    (hraw : isInternal st child = false) :
    (getTrap st rowRef objRef prop now).1.log = st.log ++ [(rowRef, OpType.save)] ∧
    (getTrap st rowRef objRef prop now).2 = Cell.ref child := by
  simp only [getTrap, hchild]
  constructor
  · rw [createDeepProxy_raw _ _ _ _ hraw, queueOperation_log]
    simp
  · trivial

/-! ## Lemmas about the operation queue map (for C6) -/

theorem mapSet_keys (l : List (Cell × Op)) (k : Cell) (v : Op) :
    (mapSet l k v).map Prod.fst =
      if k ∈ l.map Prod.fst then l.map Prod.fst else l.map Prod.fst ++ [k] := by
  induction l with
  | nil => simp [mapSet]
  | cons p rest ih =>
      by_cases h : p.1 = k
      · simp [mapSet, h]
      · simp only [mapSet, if_neg h, List.map_cons, List.mem_cons]
        rw [ih]
        have hk : ¬ k = p.1 := fun hk => h hk.symm
        by_cases hm : k ∈ rest.map Prod.fst
        · simp [hm, hk]
        · simp [hm, hk]

theorem mapSet_keys_nodup (l : List (Cell × Op)) (k : Cell) (v : Op)
    (h : (l.map Prod.fst).Nodup) : ((mapSet l k v).map Prod.fst).Nodup := by
  rw [mapSet_keys]
  by_cases hm : k ∈ l.map Prod.fst
  · simpa [hm] using h
  · simp only [if_neg hm]
    rw [List.nodup_append]
    exact ⟨h, List.nodup_singleton k, fun a ha hak => hm ((List.mem_singleton.mp hak) ▸ ha)⟩

theorem queueOperation_queue_shape (st : TPState) (r : Nat) (ty : OpType) (now : Nat) :
    ∃ k, (queueOperation st r ty now).queue = mapSet st.queue k { row := r, ty := ty } := by
  simp only [queueOperation]
  split <;> split <;> exact ⟨_, rfl⟩

theorem queueKeys_nodup_queueOperation (st : TPState) (r : Nat) (ty : OpType) (now : Nat)
    (h : (queueKeys st).Nodup) : (queueKeys (queueOperation st r ty now)).Nodup := by
  obtain ⟨k, hk⟩ := queueOperation_queue_shape st r ty now
  have : queueKeys (queueOperation st r ty now) = (mapSet st.queue k { row := r, ty := ty }).map Prod.fst := by
    rw [queueKeys, hk]
  rw [this]
  exact mapSet_keys_nodup _ _ _ h

theorem applyWrites_queue_keep (st : TPState) (rowRef : Nat)
    (writes : List (String × Cell)) (now : Nat)
    (hq : st.queue = [(getIdx st rowRef, { row := rowRef, ty := OpType.save })])
    (hidx : getIdx st rowRef ≠ undefCell)
    (hw : ∀ w ∈ writes, w.1 ≠ ("_idx")) :
    (applyWrites st rowRef writes now).queue =
      [(getIdx st rowRef, { row := rowRef, ty := OpType.save })] ∧
    getIdx (applyWrites st rowRef writes now) rowRef = getIdx st rowRef ∧
    (applyWrites st rowRef writes now).hsize = st.hsize ∧
    (applyWrites st rowRef writes now).rows = st.rows := by
  induction writes generalizing st with
  | nil => exact ⟨hq, rfl, rfl, rfl⟩
  | cons w ws ih =>
      obtain ⟨k, v⟩ := w
      have hkne : k ≠ ("_idx") := hw (k, v) (List.mem_cons_self _ _)
      have happ : applyWrites st rowRef ((k, v) :: ws) now =
          applyWrites (setTrap st rowRef rowRef k v now) rowRef ws now := rfl
      rw [happ]
      have hidx_w : getIdx (writeRaw st rowRef k v) rowRef = getIdx st rowRef :=
        getField_writeRaw_ne_key _ _ _ (Ne.symm hkne)
      by_cases hc : getField st rowRef k = v
      · rw [setTrap_eq_of_eq _ _ _ _ _ _ hc]
        have h1 := ih (writeRaw st rowRef k v)
          (by rw [writeRaw_queue, hidx_w]; exact hq)
          (by rw [hidx_w]; exact hidx)
          (fun x hx => hw x (List.mem_cons_of_mem _ hx))
        rw [hidx_w] at h1
        exact h1
      · rw [setTrap_eq_of_ne _ _ _ _ _ _ hc]
        have h0 : getIdx (writeRaw st rowRef k v) rowRef ≠ undefCell := by
          rw [hidx_w]; exact hidx
        have hidx_q : getIdx (queueOperation (writeRaw st rowRef k v) rowRef OpType.save now) rowRef
            = getIdx st rowRef := by
          have h1 : getIdx (queueOperation (writeRaw st rowRef k v) rowRef OpType.save now) rowRef
              = getIdx (writeRaw st rowRef k v) rowRef :=
            queueOperation_getField_defined _ _ _ _ _ ("_idx") h0
          rw [h1, hidx_w]
        have hq_q : (queueOperation (writeRaw st rowRef k v) rowRef OpType.save now).queue =
            [(getIdx st rowRef, { row := rowRef, ty := OpType.save })] := by
          rw [queueOperation_queue_defined _ _ _ _ h0, hidx_w, writeRaw_queue, hq]
          simp [mapSet]
        have h1 := ih (queueOperation (writeRaw st rowRef k v) rowRef OpType.save now)
          (by rw [hq_q, hidx_q]) (by rw [hidx_q]; exact hidx)
          (fun x hx => hw x (List.mem_cons_of_mem _ hx))
        rw [hidx_q] at h1
        refine ⟨h1.1, h1.2.1, ?_, ?_⟩
        · rw [h1.2.2.1]; simp
        · rw [h1.2.2.2]; simp

theorem flushSync_saves_single (st : TPState) (k : Cell) (r : Nat)
    (h : st.queue = [(k, { row := r, ty := OpType.save })]) :
    (flushSync st).2.saves = [serializeRow (st.hsize + 1) st.heap r] := by
  simp [flushSync, h]

/-! ## Rows preservation and heap frame lemmas (for C7 and C8) -/

theorem setTrap_rows (st : TPState) (a b : Nat) (p : String) (v : Cell) (n : Nat) :
    (setTrap st a b p v n).rows = st.rows := by
  simp only [setTrap]
  split
  · rw [queueOperation_rows, writeRaw_rows]
  · rw [writeRaw_rows]

theorem wrapRow_rows (st : TPState) (r now : Nat) : (wrapRow st r now).rows = st.rows := by
  by_cases h : isInternal st r
  · rw [wrapRow_internal _ _ _ h]
  · rw [wrapRow_raw _ _ _ (by simpa using h), queueOperation_rows, markInternal_rows]

theorem wrapItemsFrom_rows (l : List Nat) :
    ∀ (st : TPState) (pos now : Nat), (wrapItemsFrom st l pos now).rows = st.rows := by
  induction l with
  | nil => intro st pos now; rfl
  | cons x xs ih =>
      intro st pos now
      show (wrapItemsFrom (wrapRow (writeRaw st x ("_idx") (Cell.sc (Scalar.int pos))) x now)
        xs (pos + 1) now).rows = st.rows
      rw [ih, wrapRow_rows, writeRaw_rows]

theorem queueAll_rows (l : List Nat) :
    ∀ (st : TPState) (ty : OpType) (now : Nat), (queueAll st l ty now).rows = st.rows := by
  induction l with
  | nil => intro st ty now; rfl
  | cons x xs ih =>
      intro st ty now
      show (queueAll (queueOperation st x ty now) xs ty now).rows = st.rows
      rw [ih, queueOperation_rows]

theorem reindexFrom_rows (l : List Nat) :
    ∀ (st : TPState) (i now : Nat), (reindexFrom st l i now).rows = st.rows := by
  induction l with
  | nil => intro st i now; rfl
  | cons x xs ih =>
      intro st i now
      show (reindexFrom (setTrap st x x ("_idx") (Cell.sc (Scalar.int i)) now) xs (i + 1) now).rows
        = st.rows
      rw [ih, setTrap_rows]

theorem setTrap_getField_ne (st : TPState) (rowRef objRef : Nat) (prop : String)
    (v : Cell) (now : Nat) {r' : Nat} (k : String)
    (hro : r' ≠ rowRef) (hoo : r' ≠ objRef) :
    getField (setTrap st rowRef objRef prop v now) r' k = getField st r' k := by
  simp only [setTrap]
  split
  · rw [queueOperation_getField_ne _ _ _ _ _ hro, getField_writeRaw_ne_obj _ _ _ _ hoo]
  · rw [getField_writeRaw_ne_obj _ _ _ _ hoo]

theorem queueAll_getField_notmem (l : List Nat) :
    ∀ (st : TPState) (ty : OpType) (now : Nat) {r' : Nat} (k : String), r' ∉ l →
      getField (queueAll st l ty now) r' k = getField st r' k := by
  induction l with
  | nil => intro st ty now r' k _; rfl
  | cons x xs ih =>
      intro st ty now r' k hmem
      have hx : r' ≠ x := fun h => hmem (h ▸ List.mem_cons_self x xs)
      have hxs : r' ∉ xs := fun h => hmem (List.mem_cons_of_mem x h)
      show getField (queueAll (queueOperation st x ty now) xs ty now) r' k = getField st r' k
      rw [ih _ _ _ _ hxs, queueOperation_getField_ne _ _ _ _ _ hx]

theorem reindexFrom_getField_notmem (l : List Nat) :
    ∀ (st : TPState) (i now : Nat) {r' : Nat} (k : String), r' ∉ l →
      getField (reindexFrom st l i now) r' k = getField st r' k := by
  induction l with
  | nil => intro st i now r' k _; rfl
  | cons x xs ih =>
      intro st i now r' k hmem
      have hx : r' ≠ x := fun h => hmem (h ▸ List.mem_cons_self x xs)
      have hxs : r' ∉ xs := fun h => hmem (List.mem_cons_of_mem x h)
      show getField (reindexFrom (setTrap st x x ("_idx") (Cell.sc (Scalar.int i)) now)
        xs (i + 1) now) r' k = getField st r' k
      rw [ih _ _ _ _ hxs, setTrap_getField_ne _ _ _ _ _ _ _ hx hx]

theorem int_ne_undefCell (i : Int) : Cell.sc (Scalar.int i) ≠ undefCell := by
  simp [undefCell]

theorem setTrap_getIdx_self (st : TPState) (r : Nat) (i : Int) (now : Nat) :
    getIdx (setTrap st r r ("_idx") (Cell.sc (Scalar.int i)) now) r = Cell.sc (Scalar.int i) := by
  simp only [setTrap]
  split
  · have hw : getIdx (writeRaw st r ("_idx") (Cell.sc (Scalar.int i))) r = Cell.sc (Scalar.int i) :=
      getField_writeRaw_self _ _ _ _
    have h0 : getIdx (writeRaw st r ("_idx") (Cell.sc (Scalar.int i))) r ≠ undefCell := by
      rw [hw]; exact int_ne_undefCell i
    exact (queueOperation_getField_defined _ _ _ _ _ ("_idx") h0).trans hw
  · exact getField_writeRaw_self _ _ _ _

/-! ## Reindex loop lemmas (for C7 and C8) -/

theorem reindexFrom_getIdx (l : List Nat) (hnd : l.Nodup) :
    ∀ (st : TPState) (i now : Nat) (j : Nat) (hj : j < l.length),
      getIdx (reindexFrom st l i now) (l.get ⟨j, hj⟩) = Cell.sc (Scalar.int (i + j)) := by
  induction l with
  | nil => intro st i now j hj; exact absurd hj (Nat.not_lt_zero j)
  | cons r rest ih =>
      intro st i now j hj
      have hstep : reindexFrom st (r :: rest) i now =
          reindexFrom (setTrap st r r ("_idx") (Cell.sc (Scalar.int i)) now) rest (i + 1) now := rfl
      match j with
      | 0 =>
          have hr : r ∉ rest := (List.nodup_cons.mp hnd).1
          have h1 : (r :: rest).get ⟨0, hj⟩ = r := rfl
          have h2 : getIdx (reindexFrom (setTrap st r r ("_idx") (Cell.sc (Scalar.int i)) now)
              rest (i + 1) now) r =
              getIdx (setTrap st r r ("_idx") (Cell.sc (Scalar.int i)) now) r :=
            reindexFrom_getField_notmem rest _ _ _ _ hr
          rw [h1, hstep, h2, setTrap_getIdx_self]
          simp only [Cell.sc.injEq, Scalar.int.injEq]
          omega
      | Nat.succ m =>
          have hm : m < rest.length := Nat.lt_of_succ_lt_succ hj
          have h1 : (r :: rest).get ⟨m + 1, hj⟩ = rest.get ⟨m, hm⟩ := rfl
          rw [h1, hstep, ih (List.nodup_cons.mp hnd).2 _ (i + 1) now m hm]
          simp only [Cell.sc.injEq, Scalar.int.injEq]
          omega

theorem reindexEvents_congr (st' st : TPState) (l : List Nat) :
    ∀ (i : Nat), (∀ x ∈ l, getIdx st' x = getIdx st x) →
      reindexEvents st' l i = reindexEvents st l i := by
  induction l with
  | nil => intro i _; rfl
  | cons r rest ih =>
      intro i h
      simp only [reindexEvents]
      rw [h r (List.mem_cons_self r rest), ih _ (fun x hx => h x (List.mem_cons_of_mem r hx))]

theorem reindexFrom_log (l : List Nat) (hnd : l.Nodup) :
    ∀ (st : TPState) (i now : Nat),
      (reindexFrom st l i now).log = st.log ++ reindexEvents st l i := by
  induction l with
  | nil => intro st i now; simp [reindexFrom, reindexEvents]
  | cons r rest ih =>
      intro st i now
      have hr : r ∉ rest := (List.nodup_cons.mp hnd).1
      have hstep : reindexFrom st (r :: rest) i now =
          reindexFrom (setTrap st r r ("_idx") (Cell.sc (Scalar.int i)) now) rest (i + 1) now := rfl
      rw [hstep, ih (List.nodup_cons.mp hnd).2]
      by_cases hc : getIdx st r = Cell.sc (Scalar.int i)
      · rw [setTrap_eq_of_eq _ _ _ _ _ _ hc]
        have hcongr : reindexEvents (writeRaw st r ("_idx") (Cell.sc (Scalar.int i))) rest (i + 1)
            = reindexEvents st rest (i + 1) := by
          apply reindexEvents_congr
          intro x hx
          exact getField_writeRaw_ne_obj _ _ _ _ (fun h => hr (h ▸ hx))
        rw [writeRaw_log, hcongr]
        simp only [reindexEvents, if_pos hc, List.nil_append]
      · rw [setTrap_eq_of_ne _ _ _ _ _ _ hc]
        have hcongr : reindexEvents
            (queueOperation (writeRaw st r ("_idx") (Cell.sc (Scalar.int i))) r OpType.save now)
            rest (i + 1) = reindexEvents st rest (i + 1) := by
          apply reindexEvents_congr
          intro x hx
          have hxr : x ≠ r := fun h => hr (h ▸ hx)
          exact (queueOperation_getField_ne _ _ _ _ ("_idx") hxr).trans
            (getField_writeRaw_ne_obj _ _ _ _ hxr)
        rw [queueOperation_log, writeRaw_log, hcongr]
        simp only [reindexEvents, if_neg hc]
        simp

theorem mem_reindexEvents_of (l : List Nat) :
    ∀ (st : TPState) (i j : Nat) (hj : j < l.length),
      getIdx st (l.get ⟨j, hj⟩) ≠ Cell.sc (Scalar.int (i + j)) →
      (l.get ⟨j, hj⟩, OpType.save) ∈ reindexEvents st l i := by
  induction l with
  | nil => intro st i j hj; exact absurd hj (Nat.not_lt_zero j)
  | cons r rest ih =>
      intro st i j hj h
      match j with
      | 0 =>
          have h0 : getIdx st r ≠ Cell.sc (Scalar.int i) := by
            simpa using h
          simp only [reindexEvents, if_neg h0]
          exact List.mem_cons_self _ _
      | Nat.succ m =>
          have hm : m < rest.length := Nat.lt_of_succ_lt_succ hj
          have h1 : (r :: rest).get ⟨m + 1, hj⟩ = rest.get ⟨m, hm⟩ := rfl
          rw [h1] at h ⊢
          have h2 : getIdx st (rest.get ⟨m, hm⟩) ≠ Cell.sc (Scalar.int (i + 1 + m)) := by
            intro hcontra
            apply h
            rw [hcontra]
            simp only [Cell.sc.injEq, Scalar.int.injEq]
            omega
          have := ih st (i + 1) m hm h2
          simp only [reindexEvents]
          exact List.mem_append_right _ this

theorem mem_reindexEvents (l : List Nat) :
    ∀ (st : TPState) (i : Nat) (x : Nat) (ty : OpType),
      (x, ty) ∈ reindexEvents st l i →
      ty = OpType.save ∧ ∃ j, ∃ (hj : j < l.length), l.get ⟨j, hj⟩ = x ∧
        getIdx st (l.get ⟨j, hj⟩) ≠ Cell.sc (Scalar.int (i + j)) := by
  induction l with
  | nil => intro st i x ty h; exact absurd h (List.not_mem_nil _)
  | cons r rest ih =>
      intro st i x ty h
      simp only [reindexEvents] at h
      rcases List.mem_append.mp h with h1 | h2
      · by_cases hc : getIdx st r = Cell.sc (Scalar.int i)
        · rw [if_pos hc] at h1
          exact absurd h1 (List.not_mem_nil _)
        · rw [if_neg hc] at h1
          have hx : (x, ty) = (r, OpType.save) := List.mem_singleton.mp h1
          have hxr : x = r := congrArg Prod.fst hx
          have hty : ty = OpType.save := congrArg Prod.snd hx
          refine ⟨hty, 0, Nat.succ_pos _, hxr.symm, ?_⟩
          simpa using hc
      · obtain ⟨hty, m, hm, hget, hne⟩ := ih st (i + 1) x ty h2
        refine ⟨hty, m + 1, Nat.succ_lt_succ hm, hget, ?_⟩
        have h1 : (r :: rest).get ⟨m + 1, Nat.succ_lt_succ hm⟩ = rest.get ⟨m, hm⟩ := rfl
        rw [h1]
        intro hcontra
        apply hne
        rw [hcontra]
        simp only [Cell.sc.injEq, Scalar.int.injEq]
        omega

/-! ## Log lemmas for the splice phases (for C7) -/

theorem queueAll_log (l : List Nat) :
    ∀ (st : TPState) (ty : OpType) (now : Nat),
      (queueAll st l ty now).log = st.log ++ l.map (fun r => (r, ty)) := by
  induction l with
  | nil => intro st ty now; simp [queueAll]
  | cons x xs ih =>
      intro st ty now
      show (queueAll (queueOperation st x ty now) xs ty now).log = _
      rw [ih, queueOperation_log]
      simp

theorem wrapRow_log_ext (st : TPState) (r now : Nat) :
    ∃ s, (wrapRow st r now).log = st.log ++ s := by
  by_cases h : isInternal st r
  · exact ⟨[], by rw [wrapRow_internal _ _ _ h]; simp⟩
  · refine ⟨[(r, OpType.save)], ?_⟩
    rw [wrapRow_raw _ _ _ (by simpa using h), queueOperation_log]
    simp

theorem wrapItemsFrom_log_ext (l : List Nat) :
    ∀ (st : TPState) (pos now : Nat), ∃ s, (wrapItemsFrom st l pos now).log = st.log ++ s := by
  induction l with
  | nil => intro st pos now; exact ⟨[], by simp [wrapItemsFrom]⟩
  | cons x xs ih =>
      intro st pos now
      obtain ⟨s1, hs1⟩ := wrapRow_log_ext (writeRaw st x ("_idx") (Cell.sc (Scalar.int pos))) x now
      obtain ⟨s2, hs2⟩ := ih (wrapRow (writeRaw st x ("_idx") (Cell.sc (Scalar.int pos))) x now)
        (pos + 1) now
      refine ⟨s1 ++ s2, ?_⟩
      show (wrapItemsFrom (wrapRow (writeRaw st x ("_idx") (Cell.sc (Scalar.int pos))) x now)
        xs (pos + 1) now).log = st.log ++ (s1 ++ s2)
      rw [hs2, hs1, writeRaw_log]
      simp

theorem setTrap_log_ext (st : TPState) (a b : Nat) (p : String) (v : Cell) (n : Nat) :
    ∃ s, (setTrap st a b p v n).log = st.log ++ s := by
  simp only [setTrap]
  split
  · exact ⟨[(a, OpType.save)], by rw [queueOperation_log, writeRaw_log]⟩
  · exact ⟨[], by rw [writeRaw_log]; simp⟩

theorem reindexFrom_log_ext (l : List Nat) :
    ∀ (st : TPState) (i now : Nat), ∃ s, (reindexFrom st l i now).log = st.log ++ s := by
  induction l with
  | nil => intro st i now; exact ⟨[], by simp [reindexFrom]⟩
  | cons r rest ih =>
      intro st i now
      obtain ⟨s1, hs1⟩ := setTrap_log_ext st r r ("_idx") (Cell.sc (Scalar.int i)) now
      obtain ⟨s2, hs2⟩ := ih (setTrap st r r ("_idx") (Cell.sc (Scalar.int i)) now) (i + 1) now
      refine ⟨s1 ++ s2, ?_⟩
      show (reindexFrom (setTrap st r r ("_idx") (Cell.sc (Scalar.int i)) now) rest (i + 1) now).log
        = st.log ++ (s1 ++ s2)
      rw [hs2, hs1]
      simp

/-! ## List index bookkeeping for splice (for C7 and C8) -/

theorem getD_eq_get (l : List Nat) (j : Nat) (h : j < l.length) :
    l.getD j 0 = l.get ⟨j, h⟩ := by
  rw [List.getD_eq_getElem l 0 h]; rfl

theorem newRows_length (l : List Nat) (p k : Nat) (hp : p + k ≤ l.length) :
    (l.take p ++ l.drop (p + k)).length = l.length - k := by
  simp [List.length_take, List.length_drop]
  omega

theorem newRows_nodup (l : List Nat) (p k : Nat) (hnd : l.Nodup) :
    (l.take p ++ l.drop (p + k)).Nodup := by
  have h1 : List.Sublist ((l.drop p).drop k) (l.drop p) := List.drop_sublist k (l.drop p)
  have h2 : l.drop (p + k) = (l.drop p).drop k := by rw [List.drop_drop]
  have h3 : List.Sublist (l.take p ++ l.drop (p + k)) (l.take p ++ l.drop p) := by
    rw [h2]; exact List.Sublist.append_left h1 _
  rw [List.take_append_drop] at h3
  exact List.Nodup.sublist h3 hnd

theorem getD_newRows_lt (l : List Nat) (p k m : Nat) (hp : p + k ≤ l.length)
    (hm : m < p) :
    (l.take p ++ l.drop (p + k)).getD m 0 = l.getD m 0 := by
  have hml : m < l.length := by omega
  have h2 : m < (l.take p ++ l.drop (p + k)).length := by
    rw [newRows_length l p k hp]; omega
  rw [getD_eq_get _ _ h2, getD_eq_get _ _ hml]
  have ht : m < (l.take p).length := by simp [List.length_take]; omega
  rw [List.get_eq_getElem, List.getElem_append_left ht, List.getElem_take]
  rfl

theorem getD_newRows_ge (l : List Nat) (p k m : Nat) (hp : p + k ≤ l.length)
    (hm : p ≤ m) (hml : m + k < l.length) :
    (l.take p ++ l.drop (p + k)).getD m 0 = l.getD (m + k) 0 := by
  have h2 : m < (l.take p ++ l.drop (p + k)).length := by
    rw [newRows_length l p k hp]; omega
  rw [getD_eq_get _ _ h2, getD_eq_get _ _ hml]
  have hlen : (l.take p).length = p := by simp [List.length_take]; omega
  have hge : (l.take p).length ≤ m := by omega
  rw [List.get_eq_getElem, List.getElem_append_right hge, List.getElem_drop]
  have hidx : (p + k) + (m - (l.take p).length) = m + k := by rw [hlen]; omega
  simp only [hidx]
  rfl

theorem removed_length (l : List Nat) (p k : Nat) (hp : p + k ≤ l.length) :
    ((l.drop p).take k).length = k := by
  simp [List.length_take, List.length_drop]
  omega

theorem getD_removed (l : List Nat) (p k m : Nat) (hp : p + k ≤ l.length) (hm : m < k) :
    ((l.drop p).take k).getD m 0 = l.getD (p + m) 0 := by
  have h2 : m < ((l.drop p).take k).length := by rw [removed_length l p k hp]; omega
  have hml : p + m < l.length := by omega
  rw [getD_eq_get _ _ h2, getD_eq_get _ _ hml]
  rw [List.get_eq_getElem, List.getElem_take, List.getElem_drop]
  rfl

theorem nodup_getD_inj (l : List Nat) (hnd : l.Nodup) (i j : Nat)
    (hi : i < l.length) (hj : j < l.length) (h : l.getD i 0 = l.getD j 0) : i = j := by
  rw [getD_eq_get _ _ hi, getD_eq_get _ _ hj] at h
  exact congrArg Fin.val ((List.Nodup.get_inj_iff hnd).mp h)

theorem getD_notmem_removed (l : List Nat) (hnd : l.Nodup) (p k q : Nat)
    (hp : p + k ≤ l.length) (hq : q < l.length) (hout : q < p ∨ p + k ≤ q) :
    l.getD q 0 ∉ (l.drop p).take k := by
  intro hmem
  obtain ⟨m, hm, he⟩ := List.getElem_of_mem hmem
  rw [removed_length l p k hp] at hm
  have he2 : ((l.drop p).take k).getD m 0 = l.getD q 0 := by
    have hm2 : m < ((l.drop p).take k).length := by rw [removed_length l p k hp]; omega
    rw [getD_eq_get _ _ hm2, List.get_eq_getElem]
    exact he
  rw [getD_removed l p k m hp hm] at he2
  have := nodup_getD_inj l hnd (p + m) q (by omega) hq he2
  omega

theorem mem_newRows_notmem_removed (l : List Nat) (hnd : l.Nodup) (p k : Nat)
    (hp : p + k ≤ l.length) (x : Nat) (hx : x ∈ l.take p ++ l.drop (p + k)) :
    x ∉ (l.drop p).take k := by
  obtain ⟨m, hm, he⟩ := List.getElem_of_mem hx
  rw [newRows_length l p k hp] at hm
  have hgd : (l.take p ++ l.drop (p + k)).getD m 0 = x := by
    have hm2 : m < (l.take p ++ l.drop (p + k)).length := by
      rw [newRows_length l p k hp]; omega
    rw [getD_eq_get _ _ hm2, List.get_eq_getElem]
    exact he
  by_cases hcase : m < p
  · rw [getD_newRows_lt l p k m hp hcase] at hgd
    rw [← hgd]
    exact getD_notmem_removed l hnd p k m hp (by omega) (Or.inl hcase)
  · have hge : p ≤ m := by omega
    rw [getD_newRows_ge l p k m hp hge (by omega)] at hgd
    rw [← hgd]
    exact getD_notmem_removed l hnd p k (m + k) hp (by omega) (Or.inr (by omega))

/-! ## getD versions of the reindex lemmas -/

theorem reindexFrom_getIdx_D (l : List Nat) (hnd : l.Nodup) (st : TPState)
    (i now j : Nat) (hj : j < l.length) :
    getIdx (reindexFrom st l i now) (l.getD j 0) = Cell.sc (Scalar.int (i + j)) := by
  rw [getD_eq_get _ _ hj]
  exact reindexFrom_getIdx l hnd st i now j hj

theorem mem_reindexEvents_of_D (l : List Nat) (st : TPState) (i j : Nat)
    (hj : j < l.length)
    (h : getIdx st (l.getD j 0) ≠ Cell.sc (Scalar.int (i + j))) :
    (l.getD j 0, OpType.save) ∈ reindexEvents st l i := by
  rw [getD_eq_get _ _ hj] at h ⊢
  exact mem_reindexEvents_of l st i j hj h

theorem mem_reindexEvents_D (l : List Nat) (st : TPState) (i : Nat) (x : Nat) (ty : OpType)
    (h : (x, ty) ∈ reindexEvents st l i) :
    ty = OpType.save ∧ ∃ j, j < l.length ∧ l.getD j 0 = x ∧
      getIdx st (l.getD j 0) ≠ Cell.sc (Scalar.int (i + j)) := by
  obtain ⟨hty, j, hj, hget, hne⟩ := mem_reindexEvents l st i x ty h
  refine ⟨hty, j, hj, ?_, ?_⟩
  · rw [getD_eq_get _ _ hj]; exact hget
  · rw [getD_eq_get _ _ hj]; exact hne

theorem getD_append_lt (l1 l2 : List Nat) (j : Nat) (hj : j < l1.length) :
    (l1 ++ l2).getD j 0 = l1.getD j 0 := by
  have h2 : j < (l1 ++ l2).length := by simp; omega
  rw [getD_eq_get _ _ h2, getD_eq_get _ _ hj, List.get_eq_getElem, List.get_eq_getElem,
    List.getElem_append_left hj]

theorem getD_append_self (l1 : List Nat) (r : Nat) :
    (l1 ++ [r]).getD l1.length 0 = r := by
  have h2 : l1.length < (l1 ++ [r]).length := by simp
  rw [getD_eq_get _ _ h2, List.get_eq_getElem, List.getElem_append_right (le_refl _)]
  simp

theorem getD_mem (l : List Nat) (j : Nat) (hj : j < l.length) : l.getD j 0 ∈ l := by
  rw [getD_eq_get _ _ hj]
  exact List.get_mem ..

/-! ## Unfolding splice and its row list -/

theorem splice_eq_general (st : TPState) (start delCnt : Nat) (items : List Nat) (now : Nat) :
    splice st start delCnt items now =
      reindexFrom
        (queueAll
          (queueAll
            ({ wrapItemsFrom st items start now with
               rows := st.rows.take (min start st.rows.length) ++ items ++
                 st.rows.drop (min start st.rows.length +
                   min delCnt (st.rows.length - min start st.rows.length)) })
            ((st.rows.drop (min start st.rows.length)).take
              (min delCnt (st.rows.length - min start st.rows.length)))
            OpType.delete now)
          items OpType.save now)
        (st.rows.take (min start st.rows.length) ++ items ++
          st.rows.drop (min start st.rows.length +
            min delCnt (st.rows.length - min start st.rows.length)))
        0 now := rfl

theorem splice_rows (st : TPState) (start delCnt : Nat) (items : List Nat) (now : Nat) :
    (splice st start delCnt items now).rows =
      st.rows.take (min start st.rows.length) ++ items ++
        st.rows.drop (min start st.rows.length +
          min delCnt (st.rows.length - min start st.rows.length)) := by
  rw [splice_eq_general, reindexFrom_rows, queueAll_rows, queueAll_rows]

theorem splice_eq_range (st : TPState) (p k : Nat) (items : List Nat) (now : Nat)
    (hrange : p + k ≤ st.rows.length) :
    splice st p k items now =
      reindexFrom
        (queueAll
          (queueAll
            ({ wrapItemsFrom st items p now with
               rows := st.rows.take p ++ items ++ st.rows.drop (p + k) })
            ((st.rows.drop p).take k) OpType.delete now)
          items OpType.save now)
        (st.rows.take p ++ items ++ st.rows.drop (p + k)) 0 now := by
  have h1 : min p st.rows.length = p := Nat.min_eq_left (by omega)
  have h2 : min k (st.rows.length - p) = k := Nat.min_eq_left (by omega)
  rw [splice_eq_general, h1, h2]

/-- Identity equals position for every row after any splice whose resulting
row list is duplicate-free: the final reindex pass writes each row's position
into its identity. -/
theorem splice_idxpos (st : TPState) (start delCnt : Nat) (items : List Nat) (now : Nat)
    (hnd : (splice st start delCnt items now).rows.Nodup) :
    IdxPos (splice st start delCnt items now) := by
  intro j hj
  rw [splice_rows] at hnd hj ⊢
  rw [splice_eq_general]
  exact (reindexFrom_getIdx_D _ hnd _ 0 now j hj).trans (by norm_num)

/-- The ghost log of a pure removal splice (no inserted items), in range:
the delete events for the removed rows followed by the reindex events, which
can be read off the pre-splice state. -/
theorem splice_pure_log (st : TPState) (p k now : Nat)
    (hrange : p + k ≤ st.rows.length) (hndrows : st.rows.Nodup) :
    (splice st p k [] now).log =
      st.log ++ ((st.rows.drop p).take k).map (fun r => (r, OpType.delete))
        ++ reindexEvents st (st.rows.take p ++ st.rows.drop (p + k)) 0 := by
  have hrw := splice_eq_range st p k [] now hrange
  simp only [List.append_nil] at hrw
  rw [hrw]
  have hN : (st.rows.take p ++ st.rows.drop (p + k)).Nodup := newRows_nodup _ _ _ hndrows
  rw [reindexFrom_log _ hN, queueAll_log, queueAll_log]
  have hcongr : reindexEvents
      (queueAll
        (queueAll ({ wrapItemsFrom st [] p now with
            rows := st.rows.take p ++ st.rows.drop (p + k) })
          ((st.rows.drop p).take k) OpType.delete now)
        [] OpType.save now)
      (st.rows.take p ++ st.rows.drop (p + k)) 0 =
      reindexEvents st (st.rows.take p ++ st.rows.drop (p + k)) 0 := by
    apply reindexEvents_congr
    intro x hx
    have hnotrem : x ∉ (st.rows.drop p).take k :=
      mem_newRows_notmem_removed st.rows hndrows p k hrange x hx
    exact queueAll_getField_notmem _ _ _ _ ("_idx") hnotrem
  rw [hcongr]
  simp [show wrapItemsFrom st [] p now = st from rfl]

/-! ## Identity assignment at load time and preservation (for C8) -/

theorem assignIdxFrom_getField_notmem (l : List Nat) :
    ∀ (st : TPState) (i : Nat) {r' : Nat} (k : String), r' ∉ l →
      getField (assignIdxFrom st l i) r' k = getField st r' k := by
  induction l with
  | nil => intro st i r' k _; rfl
  | cons x xs ih =>
      intro st i r' k hmem
      have hx : r' ≠ x := fun h => hmem (h ▸ List.mem_cons_self x xs)
      have hxs : r' ∉ xs := fun h => hmem (List.mem_cons_of_mem x h)
      simp only [assignIdxFrom]
      rw [ih _ _ _ hxs]
      split
      · exact getField_writeRaw_ne_obj _ _ _ _ hx
      · rfl

theorem assignIdxFrom_getIdx (l : List Nat) (hnd : l.Nodup) :
    ∀ (st : TPState) (i : Nat) (j : Nat) (hj : j < l.length),
      (getIdx st (l.get ⟨j, hj⟩) = undefCell ∨
        getIdx st (l.get ⟨j, hj⟩) = Cell.sc (Scalar.int (i + j))) →
      getIdx (assignIdxFrom st l i) (l.get ⟨j, hj⟩) = Cell.sc (Scalar.int (i + j)) := by
  induction l with
  | nil => intro st i j hj _; exact absurd hj (Nat.not_lt_zero j)
  | cons r rest ih =>
      intro st i j hj hcase
      have hr : r ∉ rest := (List.nodup_cons.mp hnd).1
      have hstep : assignIdxFrom st (r :: rest) i =
          assignIdxFrom (if getIdx st r = undefCell
            then writeRaw st r ("_idx") (Cell.sc (Scalar.int i)) else st) rest (i + 1) := rfl
      match j with
      | 0 =>
          have hget : (r :: rest).get ⟨0, hj⟩ = r := rfl
          rw [hget] at hcase ⊢
          rw [hstep]
          have hframe : getIdx (assignIdxFrom (if getIdx st r = undefCell
              then writeRaw st r ("_idx") (Cell.sc (Scalar.int i)) else st) rest (i + 1)) r =
              getIdx (if getIdx st r = undefCell
                then writeRaw st r ("_idx") (Cell.sc (Scalar.int i)) else st) r :=
            assignIdxFrom_getField_notmem rest _ _ ("_idx") hr
          rw [hframe]
          by_cases hc : getIdx st r = undefCell
          · rw [if_pos hc]
            refine (getField_writeRaw_self st r ("_idx") (Cell.sc (Scalar.int i))).trans ?_
            simp only [Cell.sc.injEq, Scalar.int.injEq]
            omega
          · rw [if_neg hc]
            rcases hcase with h1 | h2
            · exact absurd h1 hc
            · exact h2
      | Nat.succ m =>
          have hm : m < rest.length := Nat.lt_of_succ_lt_succ hj
          have hget : (r :: rest).get ⟨m + 1, hj⟩ = rest.get ⟨m, hm⟩ := rfl
          rw [hget] at hcase ⊢
          rw [hstep]
          have hmem : rest.get ⟨m, hm⟩ ∈ rest := List.get_mem ..
          have hne : rest.get ⟨m, hm⟩ ≠ r := fun h => hr (h ▸ hmem)
          have hpres : getIdx (if getIdx st r = undefCell
              then writeRaw st r ("_idx") (Cell.sc (Scalar.int i)) else st)
              (rest.get ⟨m, hm⟩) = getIdx st (rest.get ⟨m, hm⟩) := by
            split
            · exact getField_writeRaw_ne_obj _ _ _ _ hne
            · rfl
          have hcase2 : getIdx (if getIdx st r = undefCell
              then writeRaw st r ("_idx") (Cell.sc (Scalar.int i)) else st)
              (rest.get ⟨m, hm⟩) = undefCell ∨
              getIdx (if getIdx st r = undefCell
                then writeRaw st r ("_idx") (Cell.sc (Scalar.int i)) else st)
                (rest.get ⟨m, hm⟩) = Cell.sc (Scalar.int (i + 1 + m)) := by
            rw [hpres]
            rcases hcase with h1 | h2
            · exact Or.inl h1
            · right
              rw [h2]
              simp only [Cell.sc.injEq, Scalar.int.injEq]
              omega
          have hfin := ih (List.nodup_cons.mp hnd).2 _ (i + 1) m hm hcase2
          refine hfin.trans ?_
          simp only [Cell.sc.injEq, Scalar.int.injEq]
          omega

theorem wrapRow_getField (st : TPState) (x now : Nat) (hdef : getIdx st x ≠ undefCell)
    (r' : Nat) (k : String) : getField (wrapRow st x now) r' k = getField st r' k := by
  by_cases hi : isInternal st x
  · rw [wrapRow_internal _ _ _ hi]
  · rw [wrapRow_raw _ _ _ (by simpa using hi)]
    have hdef2 : getIdx (markInternal st x) x ≠ undefCell := fun hcon =>
      hdef ((getField_markInternal st x x ("_idx")).symm.trans hcon)
    rw [queueOperation_getField_defined _ _ _ _ _ _ hdef2, getField_markInternal]

theorem wrapAll_getField (l : List Nat) :
    ∀ (st : TPState) (now : Nat), (∀ x ∈ l, getIdx st x ≠ undefCell) →
      ∀ (r' : Nat) (k : String), getField (wrapAll st l now) r' k = getField st r' k := by
  induction l with
  | nil => intro st now _ r' k; rfl
  | cons x xs ih =>
      intro st now hdef r' k
      have hdx : getIdx st x ≠ undefCell := hdef x (List.mem_cons_self x xs)
      have hdef2 : ∀ y ∈ xs, getIdx (wrapRow st x now) y ≠ undefCell := fun y hy hcon =>
        hdef y (List.mem_cons_of_mem x hy)
          ((wrapRow_getField st x now hdx y ("_idx")).symm.trans hcon)
      show getField (wrapAll (wrapRow st x now) xs now) r' k = _
      rw [ih _ _ hdef2 r' k, wrapRow_getField st x now hdx r' k]

theorem initTable_idxpos (heap : Heap) (hsize : Nat) (data : List Nat) (now : Nat)
    (hnd : data.Nodup)
    (hload : ∀ j, (hj : j < data.length) →
      rawGet (heap (data.get ⟨j, hj⟩)) ("_idx") = undefCell ∨
      rawGet (heap (data.get ⟨j, hj⟩)) ("_idx") = Cell.sc (Scalar.int j)) :
    IdxPos (initTable heap hsize data now) := by
  have hcase : ∀ (m : Nat) (hm : m < data.length),
      getIdx (mkTable heap hsize) (data.get ⟨m, hm⟩) = undefCell ∨
      getIdx (mkTable heap hsize) (data.get ⟨m, hm⟩) = Cell.sc (Scalar.int (0 + m)) := by
    intro m hm
    rcases hload m hm with h1 | h2
    · exact Or.inl h1
    · right
      refine h2.trans ?_
      simp only [Cell.sc.injEq, Scalar.int.injEq]
      omega
  have hdef : ∀ x ∈ data, getIdx (assignIdxFrom (mkTable heap hsize) data 0) x ≠ undefCell := by
    intro x hx
    obtain ⟨m, hm, he⟩ := List.getElem_of_mem hx
    have hgm : data.get ⟨m, hm⟩ = x := he
    have hm2 := assignIdxFrom_getIdx data hnd (mkTable heap hsize) 0 m hm (hcase m hm)
    rw [hgm] at hm2
    rw [hm2]
    exact int_ne_undefCell _
  intro j hj
  have hj2 : j < data.length := hj
  have hw : getIdx (initTable heap hsize data now) (data.getD j 0) =
      getIdx (assignIdxFrom (mkTable heap hsize) data 0) (data.getD j 0) :=
    wrapAll_getField data _ now hdef _ ("_idx")
  have hgoal : getIdx (initTable heap hsize data now) ((initTable heap hsize data now).rows.getD j 0)
      = getIdx (initTable heap hsize data now) (data.getD j 0) := rfl
  rw [hgoal, hw, getD_eq_get data j hj2]
  refine (assignIdxFrom_getIdx data hnd (mkTable heap hsize) 0 j hj2 (hcase j hj2)).trans ?_
  simp only [Cell.sc.injEq, Scalar.int.injEq]
  omega

theorem writeRaw_getIdx_pres (st : TPState) (objRef : Nat) (prop : String) (v : Cell)
    (hprop : prop ≠ ("_idx")) (r' : Nat) :
    getIdx (writeRaw st objRef prop v) r' = getIdx st r' := by
  by_cases h : r' = objRef
  · subst h; exact getField_writeRaw_ne_key _ _ _ (Ne.symm hprop)
  · exact getField_writeRaw_ne_obj _ _ _ _ h

theorem setTrap_getIdx_pres (st : TPState) (rowRef objRef : Nat) (prop : String)
    (v : Cell) (now : Nat) (hprop : prop ≠ ("_idx"))
    (hdef : getIdx st rowRef ≠ undefCell) (r' : Nat) :
    getIdx (setTrap st rowRef objRef prop v now) r' = getIdx st r' := by
  simp only [setTrap]
  split
  · have hdef2 : getIdx (writeRaw st objRef prop v) rowRef ≠ undefCell := by
      rw [writeRaw_getIdx_pres st objRef prop v hprop rowRef]; exact hdef
    refine (queueOperation_getField_defined _ _ _ _ _ ("_idx") hdef2).trans ?_
    exact writeRaw_getIdx_pres st objRef prop v hprop r'
  · exact writeRaw_getIdx_pres st objRef prop v hprop r'

theorem idxpos_mem_defined (st : TPState) (rowRef : Nat) (hpos : IdxPos st)
    (hmem : rowRef ∈ st.rows) : getIdx st rowRef ≠ undefCell := by
  obtain ⟨m, hm, he⟩ := List.getElem_of_mem hmem
  have h1 : getIdx st (st.rows.getD m 0) = Cell.sc (Scalar.int m) := hpos m hm
  rw [getD_eq_get _ _ hm] at h1
  have hge : st.rows.get ⟨m, hm⟩ = rowRef := he
  rw [hge] at h1
  rw [h1]
  exact int_ne_undefCell _

theorem setTrap_idxpos (st : TPState) (rowRef objRef : Nat) (prop : String) (v : Cell)
    (now : Nat) (hpos : IdxPos st) (hmem : rowRef ∈ st.rows)
    (hprop : prop ≠ ("_idx")) : IdxPos (setTrap st rowRef objRef prop v now) := by
  have hdef : getIdx st rowRef ≠ undefCell := idxpos_mem_defined st rowRef hpos hmem
  intro j hj
  rw [setTrap_rows] at hj ⊢
  rw [setTrap_getIdx_pres st rowRef objRef prop v now hprop hdef]
  exact hpos j hj

theorem push_rows (st : TPState) (r now : Nat) : (push st r now).rows = st.rows ++ [r] := by
  show (queueOperation _ r OpType.save now).rows = _
  rw [queueOperation_rows]
  show (wrapRow (writeRaw st r ("_idx") (Cell.sc (Scalar.int st.rows.length))) r now).rows ++ [r] = _
  rw [wrapRow_rows, writeRaw_rows]

theorem push_getIdx_self (st : TPState) (r now : Nat) :
    getIdx (push st r now) r = Cell.sc (Scalar.int st.rows.length) := by
  have h1 : getIdx (writeRaw st r ("_idx") (Cell.sc (Scalar.int st.rows.length))) r =
      Cell.sc (Scalar.int st.rows.length) := getField_writeRaw_self _ _ _ _
  have h2 : getIdx (wrapRow (writeRaw st r ("_idx") (Cell.sc (Scalar.int st.rows.length))) r now) r
      = Cell.sc (Scalar.int st.rows.length) := by
    refine (wrapRow_getField _ _ now (by rw [h1]; exact int_ne_undefCell _) r ("_idx")).trans ?_
    exact h1
  have h3 : getIdx (push st r now) r =
      getIdx (wrapRow (writeRaw st r ("_idx") (Cell.sc (Scalar.int st.rows.length))) r now) r := by
    refine queueOperation_getField_defined _ _ _ _ _ ("_idx") ?_
    rw [show getIdx ({ wrapRow (writeRaw st r ("_idx") (Cell.sc (Scalar.int st.rows.length))) r now
      with rows := (wrapRow (writeRaw st r ("_idx") (Cell.sc (Scalar.int st.rows.length))) r now).rows ++ [r] }) r
      = getIdx (wrapRow (writeRaw st r ("_idx") (Cell.sc (Scalar.int st.rows.length))) r now) r from rfl]
    rw [h2]
    exact int_ne_undefCell _
  rw [h3, h2]

theorem push_getIdx_ne (st : TPState) (r now : Nat) {r' : Nat} (hne : r' ≠ r) :
    getIdx (push st r now) r' = getIdx st r' := by
  have h1 : getIdx (writeRaw st r ("_idx") (Cell.sc (Scalar.int st.rows.length))) r =
      Cell.sc (Scalar.int st.rows.length) := getField_writeRaw_self _ _ _ _
  have h4 : getIdx (push st r now) r' =
      getIdx (wrapRow (writeRaw st r ("_idx") (Cell.sc (Scalar.int st.rows.length))) r now) r' :=
    queueOperation_getField_ne _ _ _ _ ("_idx") hne
  rw [h4]
  refine (wrapRow_getField _ _ now (by rw [h1]; exact int_ne_undefCell _) r' ("_idx")).trans ?_
  exact getField_writeRaw_ne_obj _ _ _ _ hne

theorem push_idxpos (st : TPState) (r now : Nat) (hpos : IdxPos st) (hfresh : r ∉ st.rows) :
    IdxPos (push st r now) := by
  intro j hj
  rw [push_rows] at hj ⊢
  have hj2 : j < st.rows.length + 1 := by
    simpa using hj
  by_cases hcase : j < st.rows.length
  · rw [getD_append_lt _ _ _ hcase]
    have hmem : st.rows.getD j 0 ∈ st.rows := getD_mem _ _ hcase
    have hne : st.rows.getD j 0 ≠ r := fun h => hfresh (h ▸ hmem)
    rw [push_getIdx_ne st r now hne]
    exact hpos j hcase
  · have hj3 : j = st.rows.length := by omega
    subst hj3
    rw [getD_append_self, push_getIdx_self]

/-! ## Claim theorems -/

/-- C1, counterexample.  In the spec's example scenario (two loaded rows,
row0.name set to a2, debounce elapses) the flush does issue exactly one
upsert with {idx 0, name a2} and no delete — but the upsert statement also
carries row1's record {idx 1, name b}, because wrapping at init time already
enqueued a save for every loaded row; so the claim's conjunct that no
statement is issued for row1 is false. -/
theorem c1_counterexample :
    (fireTimer c1AfterSet).isSome = true ∧
    c1Batch = { saves := [c1SavedRow0, c1SavedRow1], deleteIds := [] } ∧
    ¬ (∀ row ∈ c1Batch.saves, lookupAssoc row ("_idx") ≠ some (SVal.plain (Scalar.int 1))) :=
  ⟨rfl, rfl, fun hall => hall c1SavedRow1 (List.Mem.tail _ (List.Mem.head _)) rfl⟩

/-- C1, amended.  After the debounce window exactly one upsert statement and
no delete statement is issued; the upsert contains {idx 0, name a2} — and
additionally row1's unchanged record {idx 1, name b}, since initialization
itself enqueues a save for every loaded row (see C3). -/
theorem c1_amended :
    c1Batch.upsertStatements = 1 ∧
    c1Batch.deleteStatements = 0 ∧
    c1Batch.saves = [c1SavedRow0, c1SavedRow1] :=
  ⟨rfl, rfl, rfl⟩

/-- C2.  The code does not keep the delete and the save distinct when their
identities coincide after reindexing: in the window that removes row 0 via
splice(0, 1) and appends a new row, the delete for the removed row is first
queued under key 0 and then overwritten in place by the save the reindexing
of the surviving row enqueues under the same key.  The ghost log shows one
delete was enqueued, yet the flush issues two upserts and zero delete
statements — against the claimed one delete plus saves. -/
theorem c2_delete_overwritten :
    c2AfterSplice.queue = [(Cell.sc (Scalar.int 0), { row := 1, ty := OpType.save })] ∧
    (c2AfterSplice.log.filter (fun e => decide (e.2 = OpType.delete))).length = 1 ∧
    c2Batch =
      { saves := [[(("_idx"), SVal.plain (Scalar.int 0)), (("name"), SVal.plain (Scalar.str ("b")))],
                  [(("_idx"), SVal.plain (Scalar.int 1)), (("name"), SVal.plain (Scalar.str ("c")))]],
        deleteIds := [] } ∧
    c2Batch.deleteStatements = 0 :=
  ⟨rfl, rfl, rfl, rfl⟩

/-- C8, counterexample.  When the initial load returns a row that already
carries an _idx different from its load position, init keeps that _idx (it
only assigns positions to rows whose _idx is undefined), a flush is armed by
the init-time wrapping, and at the moment that flush clears the queue the row
at position 0 still has identity 5: the invariant does not cover rows loaded
with arbitrary pre-existing _idx values. -/
theorem c8_counterexample :
    c8St.rows = [0] ∧
    c8St.timer = some 500 ∧
    c8St.queue ≠ [] ∧
    getIdx c8St 0 = Cell.sc (Scalar.int 5) ∧
    getIdx c8St 0 ≠ Cell.sc (Scalar.int 0) ∧
    (fireTimer c8St).map (fun p => p.2.saves) =
      some [[(("_idx"), SVal.plain (Scalar.int 5)), (("name"), SVal.plain (Scalar.str ("x")))]] :=
  ⟨rfl, rfl, by decide, rfl, by decide, rfl⟩

/-- C4.  On timer fire the queue is snapshotted, the map cleared and the
timer handle reset synchronously, before the gateway sees the batch: the
post-callback state has an empty queue and no timer while heap and rows are
untouched; the state is independent of the gateway outcome; and a mutation
arriving while the flush I/O is in flight lands in the empty queue as the
only entry and arms a fresh timer with a full window from its own time —
the already computed batch being a pure function of the pre-flush state. -/
theorem c4_flush_boundary (st : TPState) (rowRef : Nat) (prop : String) (v : Cell) (t : Nat)
    (hchange : getField st rowRef prop ≠ v)
    (hprop : prop ≠ ("_idx"))
    (hdef : getIdx st rowRef ≠ undefCell) :
    (flushSync st).1.queue = [] ∧
    (flushSync st).1.timer = none ∧
    (flushSync st).1.heap = st.heap ∧
    (flushSync st).1.rows = st.rows ∧
    (∀ ok : Bool, flushCallback st ok = flushSync st) ∧
    (setTrap (flushSync st).1 rowRef rowRef prop v t).queue =
      [(getIdx st rowRef, { row := rowRef, ty := OpType.save })] ∧
    (setTrap (flushSync st).1 rowRef rowRef prop v t).timer = some (t + 500) := by
  have hset : setTrap (flushSync st).1 rowRef rowRef prop v t =
      queueOperation (writeRaw (flushSync st).1 rowRef prop v) rowRef OpType.save t :=
    setTrap_eq_of_ne _ _ _ _ _ _ hchange
  have hidx : getIdx (writeRaw (flushSync st).1 rowRef prop v) rowRef = getIdx st rowRef :=
    getField_writeRaw_ne_key _ _ _ (Ne.symm hprop)
  refine ⟨rfl, rfl, rfl, rfl, fun ok => rfl, ?_, ?_⟩
  · rw [hset, queueOperation_queue_defined _ _ _ _ (by rw [hidx]; exact hdef), hidx]
    rfl
  · rw [hset, queueOperation_timer_none]
    rfl

/-- C4, witness at the armed one-row mirror with a queued save. -/
theorem c4_witness :
    (flushSync wQueued).1.queue = [] ∧
    (flushSync wQueued).1.timer = none ∧
    (flushSync wQueued).1.heap = wQueued.heap ∧
    (flushSync wQueued).1.rows = wQueued.rows ∧
    (∀ ok : Bool, flushCallback wQueued ok = flushSync wQueued) ∧
    (setTrap (flushSync wQueued).1 0 0 ("v") (Cell.sc (Scalar.int 2)) 900).queue =
      [(getIdx wQueued 0, { row := 0, ty := OpType.save })] ∧
    (setTrap (flushSync wQueued).1 0 0 ("v") (Cell.sc (Scalar.int 2)) 900).timer =
      some (900 + 500) :=
  c4_flush_boundary wQueued 0 ("v") (Cell.sc (Scalar.int 2)) 900
    (by decide) (by decide) (by decide)

/-- C5.  At most one debounce timer is armed per mirror: enqueueing on an
idle mirror arms the single timer with the fixed 500 ms window measured from
that first mutation; any enqueue while armed leaves the deadline exactly as
it was (no reset, no extension, no second timer), and so does any sequence
of further mutations; the timer can only fire while armed, firing runs
exactly one flush, and afterwards the timer is disarmed so no second flush
can occur for the same arming. -/
theorem c5_debounce_fixed_window (st : TPState) (r : Nat) (ty : OpType) (t d : Nat)
    (ops : List (Nat × OpType × Nat)) :
    (st.timer = none → (queueOperation st r ty t).timer = some (t + 500)) ∧
    (st.timer = some d → (queueOperation st r ty t).timer = some d) ∧
    (st.timer = some d → (applyOps st ops).timer = some d) ∧
    (st.timer = none → fireTimer st = none) ∧
    (st.timer = some d →
      fireTimer st = some (flushSync st) ∧
      (flushSync st).1.timer = none ∧
      fireTimer (flushSync st).1 = none) := by
  refine ⟨queueOperation_timer_none st r ty t, queueOperation_timer_some st r ty t d, ?_, ?_, ?_⟩
  · induction ops generalizing st with
    | nil => exact fun h => h
    | cons op rest ih =>
        obtain ⟨rr, ty', tt⟩ := op
        exact fun h => ih _ (queueOperation_timer_some _ _ _ _ _ h)
  · intro h; simp [fireTimer, h]
  · intro h
    exact ⟨by simp [fireTimer, h], rfl, rfl⟩

/-- C5, witness: idle mirror armed at 7 with window 500; armed mirror keeps
deadline 500 under single and repeated further mutations; firing behaviour. -/
theorem c5_witness :
    (queueOperation wIdle 0 OpType.save 7).timer = some (7 + 500) ∧
    (queueOperation wArmed 0 OpType.save 7).timer = some 500 ∧
    (applyOps wArmed [(0, OpType.save, 9), (0, OpType.delete, 323)]).timer = some 500 ∧
    fireTimer wIdle = none ∧
    (fireTimer wArmed = some (flushSync wArmed) ∧
      (flushSync wArmed).1.timer = none ∧
      fireTimer (flushSync wArmed).1 = none) :=
  ⟨(c5_debounce_fixed_window wIdle 0 OpType.save 7 0 []).1 rfl,
   (c5_debounce_fixed_window wArmed 0 OpType.save 7 500 []).2.1 rfl,
   (c5_debounce_fixed_window wArmed 0 OpType.save 7 500
      [(0, OpType.save, 9), (0, OpType.delete, 323)]).2.2.1 rfl,
   (c5_debounce_fixed_window wIdle 0 OpType.save 7 0 []).2.2.2.1 rfl,
   (c5_debounce_fixed_window wArmed 0 OpType.save 7 500 []).2.2.2.2 rfl⟩

/-- C9.  A field write through the set trap is performed unconditionally,
and onChange — observable as one appended dirty-log event and one enqueued
save — runs synchronously after the write exactly when the old and the new
cell differ, under cell equality: reference equality for composites, value
equality for scalars, never a deep comparison. -/
theorem c9_set_trap_semantics (st : TPState) (rowRef objRef : Nat) (prop : String)
    (v : Cell) (now : Nat) :
    getField (writeRaw st objRef prop v) objRef prop = v ∧
    setTrap st rowRef objRef prop v now =
      (if getField st objRef prop = v then writeRaw st objRef prop v
       else queueOperation (writeRaw st objRef prop v) rowRef OpType.save now) ∧
    (setTrap st rowRef objRef prop v now).log =
      st.log ++ (if getField st objRef prop = v then [] else [(rowRef, OpType.save)]) := by
  refine ⟨getField_writeRaw_self st objRef prop v, ?_, ?_⟩
  · by_cases h : getField st objRef prop = v
    · rw [if_pos h, setTrap_eq_of_eq _ _ _ _ _ _ h]
    · rw [if_neg h, setTrap_eq_of_ne _ _ _ _ _ _ h]
  · by_cases h : getField st objRef prop = v
    · rw [if_pos h, setTrap_eq_of_eq _ _ _ _ _ _ h]
      simp
    · rw [if_neg h, setTrap_eq_of_ne _ _ _ _ _ _ h, queueOperation_log]
      simp

/-- C3.  Wrapping a raw composite itself invokes onChange once — the
INTERNAL-marker assignment passes through the new proxy's own set trap with
old value undefined — so createDeepProxy on an unmarked target appends one
save event for the owning row; consequently initialization enqueues one save
per loaded row (the ghost log after init is exactly one save event per row in
load order) and arms the flush timer; and the first read of a field holding a
not-yet-wrapped composite enqueues one save for the owning row while
returning the same reference. -/
theorem c3_wrapping_fires_onchange (st : TPState) (rowRef r : Nat) (now : Nat)
    (heap : Heap) (hsize : Nat) (data : List Nat) (x : Nat) (xs : List Nat)
    (objRef child : Nat) (prop : String)
    (hraw : isInternal st r = false)
    (hdata : data = x :: xs)
    (hdraw : ∀ y ∈ data, (heap y).internal = false)
    (hnd : data.Nodup)
    (hchild : getField st objRef prop = Cell.ref child)
    (hchraw : isInternal st child = false) :
    (createDeepProxy st rowRef r now).log = st.log ++ [(rowRef, OpType.save)] ∧
    (initTable heap hsize data now).log = data.map (fun y => (y, OpType.save)) ∧
    (initTable heap hsize data now).timer = some (now + 500) ∧
    (getTrap st rowRef objRef prop now).1.log = st.log ++ [(rowRef, OpType.save)] ∧
    (getTrap st rowRef objRef prop now).2 = Cell.ref child := by
  have hst1raw : ∀ y ∈ data,
      isInternal (assignIdxFrom (mkTable heap hsize) data 0) y = false := by
    intro y hy
    rw [assignIdxFrom_isInternal]
    exact hdraw y hy
  have hlog0 : (assignIdxFrom (mkTable heap hsize) data 0).log = [] :=
    assignIdxFrom_log _ _ _
  have htimer0 : (assignIdxFrom (mkTable heap hsize) data 0).timer = none :=
    assignIdxFrom_timer _ _ _
  have hinitlog : (initTable heap hsize data now).log =
      (wrapAll (assignIdxFrom (mkTable heap hsize) data 0) data now).log := rfl
  have hinittimer : (initTable heap hsize data now).timer =
      (wrapAll (assignIdxFrom (mkTable heap hsize) data 0) data now).timer := rfl
  refine ⟨?_, ?_, ?_, (getTrap_child_raw st rowRef objRef prop now child hchild hchraw).1,
    (getTrap_child_raw st rowRef objRef prop now child hchild hchraw).2⟩
  · rw [createDeepProxy_raw _ _ _ _ hraw, queueOperation_log]
    simp
  · rw [hinitlog, wrapAll_log _ _ _ hst1raw hnd, hlog0]
    simp
  · rw [hinittimer]
    subst hdata
    exact wrapAll_timer_arms _ _ _ _ (hst1raw x (List.mem_cons_self x xs)) htimer0

/-- C3, witness: the two-row load of the C1 table (both rows raw) arms the
timer and logs one save per row; wrapping the raw nested composite of wNest
fires one save; the first read of the data field of wNest's row wraps the
child and fires one save for the row. -/
theorem c3_witness :
    (createDeepProxy wNest 0 1 50).log = wNest.log ++ [(0, OpType.save)] ∧
    (initTable c1Heap 2 [0, 1] 50).log = [0, 1].map (fun y => (y, OpType.save)) ∧
    (initTable c1Heap 2 [0, 1] 50).timer = some (50 + 500) ∧
    (getTrap wNest 0 0 ("data") 50).1.log = wNest.log ++ [(0, OpType.save)] ∧
    (getTrap wNest 0 0 ("data") 50).2 = Cell.ref 1 :=
  c3_wrapping_fires_onchange wNest 0 1 50 c1Heap 2 [0, 1] 0 [1] 0 1 ("data")
    rfl rfl (by decide) (by decide) rfl rfl

/-- C6.  The operation queue is keyed by identity and holds at most one
pending operation per identity (key-uniqueness is preserved by every
enqueue); a burst of successive tracked writes to the same row within one
window leaves exactly one queued save entry for that row's identity; and
since the entry holds the row by reference, the flush serializes the row's
fields from the heap as it stands when the queue is cleared — last write
wins. -/
theorem c6_mutation_coalescing (st : TPState) (rowRef : Nat) (w : String × Cell)
    (ws : List (String × Cell)) (now : Nat)
    (hq : st.queue = [])
    (hidx : getIdx st rowRef ≠ undefCell)
    (hw1 : w.1 ≠ ("_idx"))
    (hws : ∀ x ∈ ws, x.1 ≠ ("_idx"))
    (hchange : getField st rowRef w.1 ≠ w.2) :
    (∀ (st2 : TPState) (r2 : Nat) (ty2 : OpType) (t2 : Nat),
        (queueKeys st2).Nodup → (queueKeys (queueOperation st2 r2 ty2 t2)).Nodup) ∧
    (applyWrites st rowRef (w :: ws) now).queue =
      [(getIdx st rowRef, { row := rowRef, ty := OpType.save })] ∧
    (flushSync (applyWrites st rowRef (w :: ws) now)).2.saves =
      [serializeRow (st.hsize + 1) (applyWrites st rowRef (w :: ws) now).heap rowRef] := by
  obtain ⟨k, v⟩ := w
  have hkne : k ≠ ("_idx") := hw1
  have happ : applyWrites st rowRef ((k, v) :: ws) now =
      applyWrites (setTrap st rowRef rowRef k v now) rowRef ws now := rfl
  have hidx_w : getIdx (writeRaw st rowRef k v) rowRef = getIdx st rowRef :=
    getField_writeRaw_ne_key _ _ _ (Ne.symm hkne)
  have hset : setTrap st rowRef rowRef k v now =
      queueOperation (writeRaw st rowRef k v) rowRef OpType.save now :=
    setTrap_eq_of_ne _ _ _ _ _ _ hchange
  have h0 : getIdx (writeRaw st rowRef k v) rowRef ≠ undefCell := by
    rw [hidx_w]; exact hidx
  have hq1 : (queueOperation (writeRaw st rowRef k v) rowRef OpType.save now).queue =
      [(getIdx st rowRef, { row := rowRef, ty := OpType.save })] := by
    rw [queueOperation_queue_defined _ _ _ _ h0, hidx_w, writeRaw_queue, hq]
    rfl
  have hidx1 : getIdx (queueOperation (writeRaw st rowRef k v) rowRef OpType.save now) rowRef
      = getIdx st rowRef :=
    (queueOperation_getField_defined (writeRaw st rowRef k v) rowRef OpType.save now rowRef
      ("_idx") h0).trans hidx_w
  have hkeep := applyWrites_queue_keep
    (queueOperation (writeRaw st rowRef k v) rowRef OpType.save now) rowRef ws now
    (by rw [hq1, hidx1]) (by rw [hidx1]; exact hidx) hws
  rw [hidx1] at hkeep
  have hhs : (applyWrites (queueOperation (writeRaw st rowRef k v) rowRef OpType.save now)
      rowRef ws now).hsize = st.hsize := by
    rw [hkeep.2.2.1]; simp
  refine ⟨queueKeys_nodup_queueOperation, ?_, ?_⟩
  · rw [happ, hset]
    exact hkeep.1
  · rw [happ, hset]
    rw [flushSync_saves_single _ _ _ hkeep.1, hhs]

/-- C6, witness: two successive writes to the v field of the idle one-row
mirror leave exactly one queued save for identity 0, and the flush serializes
the final state of the row. -/
theorem c6_witness :
    (∀ (st2 : TPState) (r2 : Nat) (ty2 : OpType) (t2 : Nat),
        (queueKeys st2).Nodup → (queueKeys (queueOperation st2 r2 ty2 t2)).Nodup) ∧
    (applyWrites wIdle 0 ((("v"), Cell.sc (Scalar.int 2)) :: [(("v"), Cell.sc (Scalar.int 3))]) 50).queue =
      [(getIdx wIdle 0, { row := 0, ty := OpType.save })] ∧
    (flushSync (applyWrites wIdle 0 ((("v"), Cell.sc (Scalar.int 2)) :: [(("v"), Cell.sc (Scalar.int 3))]) 50)).2.saves =
      [serializeRow (wIdle.hsize + 1)
        (applyWrites wIdle 0 ((("v"), Cell.sc (Scalar.int 2)) :: [(("v"), Cell.sc (Scalar.int 3))]) 50).heap 0] :=
  c6_mutation_coalescing wIdle 0 (("v"), Cell.sc (Scalar.int 2))
    [(("v"), Cell.sc (Scalar.int 3))] 50 rfl (by decide) (by decide)
    (by decide) (by decide)

theorem wSpl_idxpos : IdxPos wSpl := by
  intro j hj
  have h2 : j < 2 := hj
  interval_cases j <;> rfl

/-- C7.  After any in-range splice whose resulting row list is duplicate-free,
every remaining row's identity equals its position (the final reindex pass);
a delete is enqueued for every removed row and a save for every inserted row
(ghost-log events of the splice); and for a pure removal of delCnt rows at
position start, every row originally past the removed range ends with its
identity decremented by delCnt and is re-queued as a save by the reindex
pass, while rows before the removal point generate no operation at all. -/
theorem c7_splice_reindex (st : TPState) (start delCnt : Nat) (items : List Nat) (now : Nat)
    (hlog : st.log = [])
    (hnd : (splice st start delCnt items now).rows.Nodup)
    (hpos : IdxPos st)
    (hrows : st.rows.Nodup)
    (hrange : start + delCnt ≤ st.rows.length)
    (hk : 1 ≤ delCnt) :
    IdxPos (splice st start delCnt items now) ∧
    (∀ r ∈ (st.rows.drop start).take delCnt,
      (r, OpType.delete) ∈ (splice st start delCnt items now).log) ∧
    (∀ x ∈ items, (x, OpType.save) ∈ (splice st start delCnt items now).log) ∧
    (∀ q, start + delCnt ≤ q → q < st.rows.length →
      getIdx (splice st start delCnt [] now) (st.rows.getD q 0) =
        Cell.sc (Scalar.int (q - delCnt)) ∧
      (st.rows.getD q 0, OpType.save) ∈ (splice st start delCnt [] now).log) ∧
    (∀ j, j < start → ∀ ty : OpType,
      (st.rows.getD j 0, ty) ∉ (splice st start delCnt [] now).log) := by
  have hndN : (st.rows.take start ++ st.rows.drop (start + delCnt)).Nodup :=
    newRows_nodup _ _ _ hrows
  have hNlen : (st.rows.take start ++ st.rows.drop (start + delCnt)).length =
      st.rows.length - delCnt := newRows_length _ _ _ hrange
  refine ⟨splice_idxpos st start delCnt items now hnd, ?_, ?_, ?_, ?_⟩
  · intro r hr
    rw [splice_eq_range st start delCnt items now hrange]
    obtain ⟨s4, hs4⟩ := reindexFrom_log_ext _ _ 0 now
    rw [hs4, queueAll_log, queueAll_log]
    refine List.mem_append_left _ (List.mem_append_left _ (List.mem_append_right _ ?_))
    exact List.mem_map_of_mem _ hr
  · intro x hx
    rw [splice_eq_range st start delCnt items now hrange]
    obtain ⟨s4, hs4⟩ := reindexFrom_log_ext _ _ 0 now
    rw [hs4, queueAll_log, queueAll_log]
    refine List.mem_append_left _ (List.mem_append_right _ ?_)
    exact List.mem_map_of_mem _ hx
  · intro q hq1 hq2
    have hqk : q - delCnt + delCnt = q := by omega
    have hgd : (st.rows.take start ++ st.rows.drop (start + delCnt)).getD (q - delCnt) 0
        = st.rows.getD q 0 := by
      have h := getD_newRows_ge st.rows start delCnt (q - delCnt) hrange (by omega) (by omega)
      rw [hqk] at h
      exact h
    constructor
    · rw [← hgd]
      have hrw := splice_eq_range st start delCnt [] now hrange
      simp only [List.append_nil] at hrw
      rw [hrw]
      have hjN : q - delCnt < (st.rows.take start ++ st.rows.drop (start + delCnt)).length := by
        rw [hNlen]; omega
      refine (reindexFrom_getIdx_D _ hndN _ 0 now (q - delCnt) hjN).trans ?_
      simp only [Cell.sc.injEq, Scalar.int.injEq]
      push_cast
      omega
    · rw [splice_pure_log st start delCnt now hrange hrows, hlog]
      simp only [List.nil_append]
      refine List.mem_append_right _ ?_
      rw [← hgd]
      refine mem_reindexEvents_of_D _ st 0 (q - delCnt) (by rw [hNlen]; omega) ?_
      rw [hgd, hpos q hq2]
      intro hcon
      simp only [Cell.sc.injEq, Scalar.int.injEq] at hcon
      omega
  · intro j hjlt ty hmem
    rw [splice_pure_log st start delCnt now hrange hrows, hlog] at hmem
    simp only [List.nil_append] at hmem
    rcases List.mem_append.mp hmem with hdel | hev
    · obtain ⟨a, ha, heq⟩ := List.mem_map.mp hdel
      have hx : a = st.rows.getD j 0 := congrArg Prod.fst heq
      rw [hx] at ha
      exact getD_notmem_removed st.rows hrows start delCnt j hrange (by omega)
        (Or.inl hjlt) ha
    · obtain ⟨hty, m, hmlen, hgd2, hne⟩ :=
        mem_reindexEvents_D _ st 0 (st.rows.getD j 0) ty hev
      rw [hNlen] at hmlen
      by_cases hcase : m < start
      · rw [getD_newRows_lt st.rows start delCnt m hrange hcase] at hgd2 hne
        have hmj := nodup_getD_inj st.rows hrows m j (by omega) (by omega) hgd2
        rw [hmj] at hne
        apply hne
        rw [hpos j (by omega)]
        simp only [Cell.sc.injEq, Scalar.int.injEq]
        omega
      · have hgecase : start ≤ m := by omega
        have hmk : m + delCnt < st.rows.length := by omega
        rw [getD_newRows_ge st.rows start delCnt m hrange hgecase hmk] at hgd2
        have hmj := nodup_getD_inj st.rows hrows (m + delCnt) j (by omega) (by omega) hgd2
        omega

/-- C7, witness: splice(0, 1, newRow) on the idle two-row mirror, and the
pure removal splice(0, 1) on the same mirror. -/
theorem c7_witness :
    IdxPos (splice wSpl 0 1 [2] 40) ∧
    (∀ r ∈ (wSpl.rows.drop 0).take 1,
      (r, OpType.delete) ∈ (splice wSpl 0 1 [2] 40).log) ∧
    (∀ x ∈ [2], (x, OpType.save) ∈ (splice wSpl 0 1 [2] 40).log) ∧
    (∀ q, 0 + 1 ≤ q → q < wSpl.rows.length →
      getIdx (splice wSpl 0 1 [] 40) (wSpl.rows.getD q 0) =
        Cell.sc (Scalar.int (q - 1)) ∧
      (wSpl.rows.getD q 0, OpType.save) ∈ (splice wSpl 0 1 [] 40).log) ∧
    (∀ j, j < 0 → ∀ ty : OpType,
      (wSpl.rows.getD j 0, ty) ∉ (splice wSpl 0 1 [] 40).log) :=
  c7_splice_reindex wSpl 0 1 [2] 40 rfl (by decide) wSpl_idxpos (by decide)
    (by decide) (by decide)

/-- C8, amended.  The identity/position invariant holds at flush time
provided every loaded row either lacked an identity (init assigns its load
position) or already stored one equal to its load position, and the mirror is
then driven only by tracked writes to non-identity fields, pushes of fresh
rows, and splices with duplicate-free results: initialization establishes the
invariant under that load condition, and each operation — including the flush
itself, which touches neither rows nor heap — preserves it. -/
theorem c8_amended_invariant (heap : Heap) (hsize : Nat) (data : List Nat) (now : Nat)
    (st : TPState) (rowRef objRef rNew : Nat) (prop : String) (v : Cell)
    (start delCnt : Nat) (items : List Nat) (t : Nat)
    (hnd : data.Nodup)
    (hload : ∀ j, (hj : j < data.length) →
      rawGet (heap (data.get ⟨j, hj⟩)) ("_idx") = undefCell ∨
      rawGet (heap (data.get ⟨j, hj⟩)) ("_idx") = Cell.sc (Scalar.int j))
    (hpos : IdxPos st)
    (hmem : rowRef ∈ st.rows)
    (hprop : prop ≠ ("_idx"))
    (hfresh : rNew ∉ st.rows)
    (hndspl : (splice st start delCnt items t).rows.Nodup) :
    IdxPos (initTable heap hsize data now) ∧
    IdxPos (setTrap st rowRef objRef prop v t) ∧
    IdxPos (push st rNew t) ∧
    IdxPos (splice st start delCnt items t) ∧
    IdxPos (flushSync st).1 :=
  ⟨initTable_idxpos heap hsize data now hnd hload,
   setTrap_idxpos st rowRef objRef prop v t hpos hmem hprop,
   push_idxpos st rNew t hpos hfresh,
   splice_idxpos st start delCnt items t hndspl,
   fun j hj => hpos j hj⟩

/-- C8, witness: the two-row load with stored identities equal to positions,
and the idle two-row mirror driven by a tracked write, a push of the fresh
row 2, a splice and a flush. -/
theorem c8_witness :
    IdxPos (initTable c1Heap 2 [0, 1] 0) ∧
    IdxPos (setTrap wSpl 0 0 ("name") (Cell.sc (Scalar.str ("z"))) 40) ∧
    IdxPos (push wSpl 2 40) ∧
    IdxPos (splice wSpl 0 1 [2] 40) ∧
    IdxPos (flushSync wSpl).1 :=
  c8_amended_invariant c1Heap 2 [0, 1] 0 wSpl 0 0 2 ("name")
    (Cell.sc (Scalar.str ("z"))) 0 1 [2] 40
    (by decide) (by decide) wSpl_idxpos (by decide) (by decide) (by decide) (by decide)

/-- C10.  A rejected gateway call leaves the mirror exactly where the
synchronous flush prefix left it: the callback state does not depend on the
gateway outcome, the failed batch's operations are not re-queued (the queue
stays empty), and the in-memory rows and heap are untouched by the flush. -/
theorem c10_flush_failure_policy (st : TPState) (gatewayOk : Bool) :
    flushCallback st gatewayOk = flushSync st ∧
    (flushSync st).1.queue = [] ∧
    (flushSync st).1.timer = none ∧
    (flushSync st).1.heap = st.heap ∧
    (flushSync st).1.rows = st.rows ∧
    (flushSync st).1.log = st.log :=
  ⟨rfl, rfl, rfl, rfl, rfl, rfl⟩

end DbProxy
